import Mathlib

/-!
Verification development for the ephemera-ai repository: a shallow embedding
of the hybrid memory manager (Loom), the agent state machine, the bounded
context window, the recall cache tools, and the context envelope escaping,
together with theorems settling the specification claims about them.

Text is modelled as `List Char` (one entry per Unicode scalar value, matching
Rust `str::chars`). Machine integers are modelled as `Nat`/`Int` with explicit
`% 256` where `u8` overflow matters.
-/

abbrev Str := List Char

/-- Decimal rendering of a natural number, as Rust `format!` would produce. -/
def natToChars (n : Nat) : Str := Nat.toDigits 10 n

/-- Decimal rendering of an `i64` value, as Rust `format!` would produce. -/
def intToChars (i : Int) : Str :=
  if i < 0 then '-' :: natToChars i.natAbs else natToChars i.natAbs

namespace Loom

/-- `MemorySource` from `psyche/loom` `memory/types.rs`: channel, identifier
and a string-keyed metadata map (modelled as an association list). -/
structure MemorySource where
  channel : Str
  identifier : Str
  metadata : List (Str × Str)
deriving DecidableEq, Repr

/-- `SubjectiveMetadata` from `memory/types.rs`. `importance` and `confidence`
are `u8` in the source; they are carried as `Nat` and all `u8` arithmetic on
them is taken `% 256`. -/
structure SubjectiveMetadata where
  importance : Nat
  confidence : Nat
  tags : List Str
  notes : Str
deriving DecidableEq, Repr

/-- `ObjectiveMetadata` from `memory/types.rs`: creation/update instants
(as unix timestamps) and the source. -/
structure ObjectiveMetadata where
  created_at : Int
  updated_at : Int
  source : MemorySource
deriving DecidableEq, Repr

/-- `MemoryFragment` from `psyche/loom` `memory/types.rs`. -/
structure MemoryFragment where
  id : Int
  content : Str
  subjective_metadata : SubjectiveMetadata
  objective_metadata : ObjectiveMetadata
  associations : List Int
deriving DecidableEq, Repr

/-- `HybridMemoryManager::calculate_importance` from `hybrid_manager.rs`.
The source accumulates into a `u8` (`let mut score = 0; score += ...`), so
each addition wraps modulo 256 (release-mode Rust semantics); the content
factor `(len.min(1000) / 100) as u8` is exact since it is at most 10, and the
tag factor `tags.len().min(5) as u8 * 2` is at most 10. -/
def calculate_importance (memory : MemoryFragment) : Nat :=
  let contentFactor := min memory.content.length 1000 / 100
  let afterConfidence :=
    (contentFactor + memory.subjective_metadata.confidence) % 256
  let afterTags :=
    (afterConfidence + min memory.subjective_metadata.tags.length 5 * 2) % 256
  min afterTags 100

/-- The importance formula exactly as the specification words it:
`min(100, (len(content) clamped to 1000)/100 + confidence + min(|tags|,5)*2)`
with exact integer arithmetic. Defined from the spec's words, to be compared
with `calculate_importance` from the source. -/
def spec_importance (memory : MemoryFragment) : Nat :=
  min 100 (min memory.content.length 1000 / 100
    + memory.subjective_metadata.confidence
    + min memory.subjective_metadata.tags.length 5 * 2)

end Loom

namespace Loom

/-- Error type of `MysqlMemoryManager` (`mysql_manager.rs`): a backend
connection error or a missing id. -/
inductive MysqlError where
  | connection : MysqlError
  | notFound : Int → MysqlError
deriving DecidableEq, Repr

/-- The relational store: rows in table (primary-key) order plus the
auto-increment counter. -/
structure MysqlStore where
  rows : List MemoryFragment
  next_id : Int
deriving DecidableEq, Repr

def MysqlStore.empty : MysqlStore := ⟨[], 1⟩

/-- `MysqlMemoryManager::save`: transactional batch insert; ids are assigned
by auto-increment in input order and returned in input order; each stored row
carries its assigned id. -/
def mysql_save (st : MysqlStore) : List MemoryFragment → MysqlStore × List Int
  | [] => (st, [])
  | m :: rest =>
    let row := { m with id := st.next_id }
    let step := mysql_save { st with rows := st.rows ++ [row], next_id := st.next_id + 1 } rest
    (step.1, st.next_id :: step.2)

/-- `MysqlMemoryManager::get`: `find().filter(Id.is_in(ids)).all()` — a scan
returning the matching rows in table order (no ORDER BY clause); ids with no
row are silently absent from the result. -/
def mysql_get (st : MysqlStore) (ids : List Int) : List MemoryFragment :=
  st.rows.filter (fun r => r.id ∈ ids)

/-- `MysqlMemoryManager::get_one`: fetch by primary key or `NotFound`. -/
def mysql_get_one (st : MysqlStore) (id : Int) : Except MysqlError MemoryFragment :=
  match st.rows.find? (fun r => r.id = id) with
  | some r => .ok r
  | none => .error (.notFound id)

/-- `MysqlMemoryManager::delete`: `delete_many().filter(Id.is_in(ids))`, then
`NotFound(0)` when no row was affected. `connFail` injects a backend
connection failure (`sea_orm::DbErr`), which the source surfaces as the
`Connection` variant. -/
def mysql_delete (connFail : Bool) (st : MysqlStore) (ids : List Int) :
    Except MysqlError MysqlStore :=
  if connFail then .error .connection
  else
    let remaining := st.rows.filter (fun r => r.id ∉ ids)
    if remaining.length = st.rows.length then .error (.notFound 0)
    else .ok { st with rows := remaining }

/-- A point in the vector store: the fragment id and its embedding vector
(vectors abstracted to integer lists; their numeric content is irrelevant to
the claims). Modelled from the spec: `qdrant_manager.rs` is not part of the
source snapshot; §4.3 gives `upsert(points)` where a point is
`(id, vector, payload)`. -/
structure QdrantPoint where
  id : Int
  vector : List Int
deriving DecidableEq, Repr

/-- Modelled from the spec: the vector store keyed by fragment id. -/
structure QdrantStore where
  points : List QdrantPoint
deriving DecidableEq, Repr

def QdrantStore.empty : QdrantStore := ⟨[]⟩

def QdrantStore.ids (qst : QdrantStore) : List Int := qst.points.map QdrantPoint.id

/-- Modelled from the spec: `QdrantMemoryManager::save` upserts all points
as a single call ("Upsert all ... into the vector store as a single call"). -/
def qdrant_save (qst : QdrantStore) (fragments : List MemoryFragment)
    (embeddings : List (List Int)) : QdrantStore :=
  ⟨qst.points ++ (fragments.zip embeddings).map (fun fe => ⟨fe.1.id, fe.2⟩)⟩

/-- Insertion by ascending distance, used to model nearest-neighbor ranking. -/
def insertByDist (dist : QdrantPoint → Int) (p : QdrantPoint) :
    List QdrantPoint → List QdrantPoint
  | [] => [p]
  | q :: rest =>
    if dist p ≤ dist q then p :: q :: rest else q :: insertByDist dist p rest

/-- Sort the stored points by ascending distance. -/
def sortByDist (dist : QdrantPoint → Int) : List QdrantPoint → List QdrantPoint
  | [] => []
  | p :: rest => insertByDist dist p (sortByDist dist rest)

/-- Modelled from the spec: `QdrantMemoryManager::search_similar` returns the
ids of the `limit` stored points nearest to the query under the distance
function (`search(vector, limit, filter?) → list of ids`, §4.3); the ranking
itself is a parameter (`dist`). -/
def search_similar (qst : QdrantStore) (dist : QdrantPoint → Int) (limit : Nat) :
    List Int :=
  ((sortByDist dist qst.points).map QdrantPoint.id).take limit

/-- `HybridError` from `hybrid_manager.rs`. -/
inductive HybridError where
  | mysql : MysqlError → HybridError
  | qdrant : HybridError
  | embedding : Str → HybridError
  | transactionRollback : Int → HybridError
deriving DecidableEq, Repr

/-- Log records emitted by the hybrid manager; the only one the claims need
is the CRITICAL line printed when the MySQL rollback itself fails. -/
inductive LogEntry where
  | criticalRollbackFailure : List Int → LogEntry
deriving DecidableEq, Repr

/-- Failure environment of one `append` call: the embedding engine oracle,
whether the Qdrant upsert succeeds, and whether the rollback delete hits a
backend connection failure. -/
structure HybridEnv where
  embed : Str → Except Str (List Int)
  qdrant_save_ok : Bool
  mysql_delete_conn_fail : Bool

/-- The per-fragment embedding loop of `append`: sequential, aborting on the
first failure (the source maps the error and returns with `?`). -/
def generate_embeddings (embed : Str → Except Str (List Int)) :
    List MemoryFragment → Except Str (List (List Int))
  | [] => .ok []
  | f :: rest =>
    match embed f.content with
    | .error e => .error e
    | .ok v =>
      match generate_embeddings embed rest with
      | .error e => .error e
      | .ok vs => .ok (v :: vs)

/-- Result of one `append` call: the returned value and the post-call state
of both stores, plus emitted critical logs. -/
structure AppendOutcome where
  result : Except HybridError (List Int)
  mysql : MysqlStore
  qdrant : QdrantStore
  logs : List LogEntry
deriving Repr

/-- Overwrite a fragment's importance with `calculate_importance`, as the
first loop of `append` does. -/
def stage_importance (f : MemoryFragment) : MemoryFragment :=
  { f with subjective_metadata :=
      { f.subjective_metadata with importance := calculate_importance f } }

/-- `HybridMemoryManager::append` from `hybrid_manager.rs`:
empty batch short-circuits; importance is overwritten; MySQL batch insert
commits and assigns ids; embeddings are generated per fragment, any failure
returning the embedding error directly (with the MySQL rows left committed);
the Qdrant upsert failure path deletes the committed rows and returns
`TransactionRollback(first id)`, logging CRITICAL if that delete fails. -/
def hybrid_append (env : HybridEnv) (st : MysqlStore) (qst : QdrantStore)
    (fragments : List MemoryFragment) : AppendOutcome :=
  if fragments.isEmpty then ⟨.ok [], st, qst, []⟩
  else
    let staged := fragments.map stage_importance
    let saved := mysql_save st staged
    let st1 := saved.1
    let generated_ids := saved.2
    let withIds := (staged.zip generated_ids).map (fun fi => { fi.1 with id := fi.2 })
    match generate_embeddings env.embed withIds with
    | .error e => ⟨.error (.embedding e), st1, qst, []⟩
    | .ok embeddings =>
      if env.qdrant_save_ok then
        ⟨.ok generated_ids, st1, qdrant_save qst withIds embeddings, []⟩
      else
        match mysql_delete env.mysql_delete_conn_fail st1 generated_ids with
        | .ok st2 =>
          ⟨.error (.transactionRollback (generated_ids.headD 0)), st2, qst, []⟩
        | .error _ =>
          ⟨.error (.transactionRollback (generated_ids.headD 0)), st1, qst,
            [LogEntry.criticalRollbackFailure generated_ids]⟩

/-- `HybridMemoryManager::get`: relational read only. -/
def hybrid_get (st : MysqlStore) (id : Int) : Except HybridError MemoryFragment :=
  match mysql_get_one st id with
  | .ok f => .ok f
  | .error e => .error (.mysql e)

/-- `HybridMemoryManager::recall` from `hybrid_manager.rs`: embed the
keywords, search Qdrant for the top 10 (the filter is always `None`, see
`build_qdrant_filter`), then batch-read the ids from MySQL; an empty id list
short-circuits to an empty result. The relational rows come back in table
order (`mysql_get`); the source performs no re-ordering. -/
def hybrid_recall (embed : Str → Except Str (List Int))
    (dist : List Int → QdrantPoint → Int) (st : MysqlStore) (qst : QdrantStore)
    (keywords : Str) : Except HybridError (List MemoryFragment) :=
  match embed keywords with
  | .error e => .error (.embedding e)
  | .ok qv =>
    let similar_ids := search_similar qst (dist qv) 10
    if similar_ids.isEmpty then .ok []
    else .ok (mysql_get st similar_ids)

end Loom

namespace Loom

/-- Rows as inserted by `mysql_save`: input order, ids `base, base+1, …`. -/
def assign_rows (base : Int) : List MemoryFragment → List MemoryFragment
  | [] => []
  | m :: rest => { m with id := base } :: assign_rows (base + 1) rest

/-- Ids as returned by `mysql_save`: `base, base+1, …`. -/
def assigned_ids (base : Int) : List MemoryFragment → List Int
  | [] => []
  | _ :: rest => base :: assigned_ids (base + 1) rest

theorem mysql_save_eq (l : List MemoryFragment) :
    ∀ st : MysqlStore, mysql_save st l =
      (⟨st.rows ++ assign_rows st.next_id l, st.next_id + l.length⟩,
        assigned_ids st.next_id l) := by
  induction l with
  | nil => intro st; simp [mysql_save, assign_rows, assigned_ids]
  | cons m rest ih =>
    intro st
    simp only [mysql_save, assign_rows, assigned_ids, ih]
    refine Prod.ext ?_ rfl
    simp only [MysqlStore.mk.injEq]
    constructor
    · simp [List.append_assoc]
    · simp only [List.length_cons]
      push_cast
      ring

theorem assign_rows_map_id (l : List MemoryFragment) :
    ∀ base, (assign_rows base l).map MemoryFragment.id = assigned_ids base l := by
  induction l with
  | nil => intro base; simp [assign_rows, assigned_ids]
  | cons m rest ih => intro base; simp [assign_rows, assigned_ids, ih]

theorem mem_assigned_ids (l : List MemoryFragment) :
    ∀ base i, i ∈ assigned_ids base l ↔ ∃ k : Nat, k < l.length ∧ i = base + k := by
  induction l with
  | nil => intro base i; simp [assigned_ids]
  | cons m rest ih =>
    intro base i
    simp only [assigned_ids, List.mem_cons, ih]
    constructor
    · rintro (rfl | ⟨k, hk, rfl⟩)
      · exact ⟨0, by simp, by simp⟩
      · exact ⟨k + 1, by simpa using hk, by push_cast; ring⟩
    · rintro ⟨k, hk, rfl⟩
      match k with
      | 0 => left; simp
      | Nat.succ k' =>
        right
        refine ⟨k', by simpa using hk, by push_cast; ring⟩

theorem assigned_ids_lower (l : List MemoryFragment) (base : Int) (i : Int)
    (h : i ∈ assigned_ids base l) : base ≤ i := by
  rcases (mem_assigned_ids l base i).mp h with ⟨k, _, rfl⟩
  have : (0 : Int) ≤ (k : Int) := Int.natCast_nonneg k
  omega

theorem mem_insertByDist (dist : QdrantPoint → Int) (p x : QdrantPoint) :
    ∀ l, x ∈ insertByDist dist p l ↔ x = p ∨ x ∈ l := by
  intro l
  induction l with
  | nil => simp [insertByDist]
  | cons q rest ih =>
    simp only [insertByDist]
    by_cases h : dist p ≤ dist q
    · simp [h, List.mem_cons]
    · simp only [if_neg h, List.mem_cons, ih]
      tauto

theorem mem_sortByDist (dist : QdrantPoint → Int) (x : QdrantPoint) :
    ∀ l, x ∈ sortByDist dist l ↔ x ∈ l := by
  intro l
  induction l with
  | nil => simp [sortByDist]
  | cons p rest ih =>
    simp only [sortByDist, mem_insertByDist, ih, List.mem_cons]

theorem search_similar_subset (qst : QdrantStore) (dist : QdrantPoint → Int)
    (limit : Nat) (i : Int) (h : i ∈ search_similar qst dist limit) :
    i ∈ qst.ids := by
  simp only [search_similar] at h
  have h2 := List.take_subset _ _ h
  rcases List.mem_map.mp h2 with ⟨p, hp, rfl⟩
  exact List.mem_map.mpr ⟨p, (mem_sortByDist dist p qst.points).mp hp, rfl⟩

end Loom

namespace Loom

theorem assigned_ids_length (l : List MemoryFragment) :
    ∀ base, (assigned_ids base l).length = l.length := by
  induction l with
  | nil => intro base; rfl
  | cons m rest ih => intro base; simp [assigned_ids, ih]

theorem assign_rows_length (l : List MemoryFragment) :
    ∀ base, (assign_rows base l).length = l.length := by
  induction l with
  | nil => intro base; rfl
  | cons m rest ih => intro base; simp [assign_rows, ih]

theorem assigned_ids_get (l : List MemoryFragment) :
    ∀ (base : Int) (i : Nat) (hg : i < (assigned_ids base l).length),
      (assigned_ids base l).get ⟨i, hg⟩ = base + i := by
  induction l with
  | nil => intro base i hg; simp [assigned_ids] at hg
  | cons m rest ih =>
    intro base i hg
    match i with
    | 0 => simp [assigned_ids]
    | Nat.succ j =>
      have step := ih (base + 1) j (by simpa [assigned_ids] using hg)
      simp only [assigned_ids, List.get_cons_succ, step]
      push_cast
      ring

theorem find?_assign_rows (l : List MemoryFragment) :
    ∀ (base : Int) (i : Nat) (hi : i < l.length),
      (assign_rows base l).find? (fun r => r.id = base + i) =
        some { l.get ⟨i, hi⟩ with id := base + i } := by
  induction l with
  | nil => intro base i hi; simp at hi
  | cons m rest ih =>
    intro base i hi
    match i with
    | 0 => simp [assign_rows, List.find?]
    | Nat.succ j =>
      have hij : base ≠ base + (j + 1 : Nat) := by push_cast; omega
      have hpred : (fun r : MemoryFragment => decide (r.id = base + (j + 1 : Nat)))
          = fun r : MemoryFragment => decide (r.id = (base + 1) + j) := by
        funext r
        have : base + ((j : Int) + 1) = (base + 1) + j := by ring
        simp only [Nat.cast_add, Nat.cast_one, this]
      have step := ih (base + 1) j (by simpa using hi)
      simp only [assign_rows, List.find?]
      rw [show (decide (({ m with id := base } : MemoryFragment).id = base + ((j : Nat) + 1 : Nat))) = false by simp; omega]
      rw [hpred, step]
      have hid : (base + 1) + (j : Int) = base + ((j : Nat) + 1 : Nat) := by
        push_cast
        ring
      have hget : (m :: rest).get ⟨j.succ, hi⟩ = rest.get ⟨j, by simpa using hi⟩ :=
        rfl
      rw [hid, hget]

end Loom

namespace Loom

/-- On any `append` call that returns `Ok ids`, the ids are the auto-increment
block starting at the store's counter and the relational store now holds the
old rows followed by the staged (importance-overwritten) batch. -/
theorem hybrid_append_result_ok (env : HybridEnv) (st : MysqlStore)
    (qst : QdrantStore) (fragments : List MemoryFragment) (ids : List Int)
    (h : (hybrid_append env st qst fragments).result = Except.ok ids) :
    ids = assigned_ids st.next_id (fragments.map stage_importance) ∧
    (hybrid_append env st qst fragments).mysql =
      ⟨st.rows ++ assign_rows st.next_id (fragments.map stage_importance),
        st.next_id + fragments.length⟩ := by
  by_cases he : fragments.isEmpty
  · have hnil : fragments = [] := by
      cases fragments with
      | nil => rfl
      | cons a l => simp at he
    subst hnil
    simp only [hybrid_append, List.isEmpty_nil, if_true] at h
    simp only [Except.ok.injEq] at h
    subst h
    simp [hybrid_append, assigned_ids, assign_rows]
  · rcases hemb : generate_embeddings env.embed
        (((fragments.map stage_importance).zip
          (mysql_save st (fragments.map stage_importance)).2).map
            (fun fi => { fi.1 with id := fi.2 })) with e | embs
    · simp only [hybrid_append, he, Bool.false_eq_true, if_false, hemb] at h
      simp at h
    · by_cases hq : env.qdrant_save_ok
      · simp only [hybrid_append, he, Bool.false_eq_true, if_false, hemb, hq,
          if_true] at h ⊢
        simp only [Except.ok.injEq] at h
        subst h
        rw [mysql_save_eq]
        simp
      · simp only [hybrid_append, he, Bool.false_eq_true, if_false, hemb, hq] at h
        rcases hdel : mysql_delete env.mysql_delete_conn_fail
            (mysql_save st (fragments.map stage_importance)).1
            (mysql_save st (fragments.map stage_importance)).2 with st2 | me
        · rw [hdel] at h
          simp at h
        · rw [hdel] at h
          simp at h

end Loom

namespace Loom

/-- When the exact importance sum does not overflow a `u8`, the source's
wrapping computation agrees with the specification's exact formula. -/
theorem calculate_importance_eq_spec (f : MemoryFragment)
    (hno : min f.content.length 1000 / 100 + f.subjective_metadata.confidence
      + min f.subjective_metadata.tags.length 5 * 2 ≤ 255) :
    calculate_importance f = spec_importance f := by
  simp only [calculate_importance, spec_importance]
  have h1 : min f.content.length 1000 / 100 + f.subjective_metadata.confidence
      < 256 := by omega
  rw [Nat.mod_eq_of_lt h1]
  have h2 : min f.content.length 1000 / 100 + f.subjective_metadata.confidence
      + min f.subjective_metadata.tags.length 5 * 2 < 256 := by omega
  rw [Nat.mod_eq_of_lt h2]
  exact Nat.min_comm _ _

/-- C5 (amended): for every fragment of a batch accepted by `append`, the
stored importance overwrites the client-supplied value with the source's
`calculate_importance`, and this equals the specification formula
`min(100, (len(content) clamped to 1000)/100 + confidence + min(|tags|,5)*2)`
whenever that exact sum is at most 255; the `u8` accumulator wraps modulo 256
otherwise. -/
theorem append_stores_spec_importance (env : HybridEnv) (st : MysqlStore)
    (qst : QdrantStore) (fragments : List MemoryFragment) (ids : List Int)
    (hok : (hybrid_append env st qst fragments).result = Except.ok ids)
    (hwf : ∀ r ∈ st.rows, r.id < st.next_id)
    (i : Nat) (hi : i < fragments.length)
    (hno : min (fragments.get ⟨i, hi⟩).content.length 1000 / 100
      + (fragments.get ⟨i, hi⟩).subjective_metadata.confidence
      + min (fragments.get ⟨i, hi⟩).subjective_metadata.tags.length 5 * 2 ≤ 255) :
    ∃ hig : i < ids.length,
      mysql_get_one (hybrid_append env st qst fragments).mysql (ids.get ⟨i, hig⟩) =
        Except.ok { stage_importance (fragments.get ⟨i, hi⟩) with
          id := ids.get ⟨i, hig⟩ } ∧
      (stage_importance (fragments.get ⟨i, hi⟩)).subjective_metadata.importance =
        spec_importance (fragments.get ⟨i, hi⟩) ∧
      (∀ v : Nat,
        calculate_importance { fragments.get ⟨i, hi⟩ with subjective_metadata :=
          { (fragments.get ⟨i, hi⟩).subjective_metadata with importance := v } } =
        calculate_importance (fragments.get ⟨i, hi⟩)) := by
  obtain ⟨hids, hmy⟩ := hybrid_append_result_ok env st qst fragments ids hok
  subst hids
  have hig : i < (assigned_ids st.next_id (fragments.map stage_importance)).length := by
    rw [assigned_ids_length]
    simpa using hi
  refine ⟨hig, ?_, ?_, ?_⟩
  · have hidv : (assigned_ids st.next_id (fragments.map stage_importance)).get
        ⟨i, hig⟩ = st.next_id + i := assigned_ids_get _ _ _ _
    rw [hidv, hmy]
    have hi' : i < (fragments.map stage_importance).length := by simpa using hi
    have hfind := find?_assign_rows (fragments.map stage_importance) st.next_id i hi'
    have hnone : st.rows.find? (fun r => r.id = st.next_id + i) = none := by
      refine List.find?_eq_none.mpr ?_
      intro r hr
      have := hwf r hr
      simp only [decide_eq_true_eq]
      have hcast : (0 : Int) ≤ (i : Int) := Int.natCast_nonneg i
      omega
    have hgm : (fragments.map stage_importance).get ⟨i, hi'⟩ =
        stage_importance (fragments.get ⟨i, hi⟩) := by
      simp
    simp only [mysql_get_one, List.find?_append, hnone, Option.none_or, hfind, hgm]
  · exact calculate_importance_eq_spec _ hno
  · intro v
    rfl

/-- Concrete fragment whose exact importance sum overflows a `u8`: content of
length 100 (factor 1), confidence 255, no tags. -/
def overflow_fragment : MemoryFragment :=
  { id := 0
  , content := List.replicate 100 'a'
  , subjective_metadata := { importance := 7, confidence := 255, tags := [], notes := [] }
  , objective_metadata := { created_at := 0, updated_at := 0, source :=
      { channel := ("dialogue").data, identifier := ("alice").data, metadata := [] } }
  , associations := [] }

/-- Environment in which embedding and the vector upsert both succeed. -/
def happy_env : HybridEnv :=
  { embed := fun _ => Except.ok [0], qdrant_save_ok := true,
    mysql_delete_conn_fail := false }

set_option maxRecDepth 40000 in
/-- C5 (counterexample): appending `overflow_fragment` stores importance 0,
while the claimed exact formula gives 100 — the `u8` accumulator wrapped. -/
theorem importance_overflow_counterexample :
    (hybrid_append happy_env MysqlStore.empty QdrantStore.empty
        [overflow_fragment]).result = Except.ok [1] ∧
    mysql_get_one (hybrid_append happy_env MysqlStore.empty QdrantStore.empty
        [overflow_fragment]).mysql 1 =
      Except.ok { stage_importance overflow_fragment with id := 1 } ∧
    (stage_importance overflow_fragment).subjective_metadata.importance = 0 ∧
    spec_importance overflow_fragment = 100 := by
  refine ⟨rfl, rfl, by decide, by decide⟩

/-- Concrete fragment with no `u8` overflow, used to witness the amended C5
theorem. -/
def modest_fragment : MemoryFragment :=
  { id := 0
  , content := ("hello world").data
  , subjective_metadata := { importance := 200, confidence := 40, tags := [("t1").data], notes := [] }
  , objective_metadata := { created_at := 0, updated_at := 0, source :=
      { channel := ("thought").data, identifier := ("self").data, metadata := [] } }
  , associations := [] }

/-- Witness for the amended C5 theorem at a concrete batch. -/
theorem append_stores_spec_importance_witness :
    ∃ hig : 0 < (assigned_ids MysqlStore.empty.next_id
        ([modest_fragment].map stage_importance)).length,
      mysql_get_one (hybrid_append happy_env MysqlStore.empty QdrantStore.empty
          [modest_fragment]).mysql
        ((assigned_ids MysqlStore.empty.next_id
          ([modest_fragment].map stage_importance)).get ⟨0, hig⟩) =
        Except.ok { stage_importance ([modest_fragment].get ⟨0, by decide⟩) with
          id := (assigned_ids MysqlStore.empty.next_id
            ([modest_fragment].map stage_importance)).get ⟨0, hig⟩ } ∧
      (stage_importance ([modest_fragment].get ⟨0, by decide⟩)).subjective_metadata.importance =
        spec_importance ([modest_fragment].get ⟨0, by decide⟩) ∧
      (∀ v : Nat,
        calculate_importance { [modest_fragment].get ⟨0, by decide⟩ with subjective_metadata :=
          { ([modest_fragment].get ⟨0, by decide⟩).subjective_metadata with importance := v } } =
        calculate_importance ([modest_fragment].get ⟨0, by decide⟩)) :=
  append_stores_spec_importance happy_env MysqlStore.empty QdrantStore.empty
    [modest_fragment] _ rfl (by intro r hr; simp [MysqlStore.empty] at hr)
    0 (by decide) (by decide)

end Loom

namespace Loom

/-- The batch as it stands when the embedding loop of `append` begins:
importance overwritten and the freshly assigned ids attached. -/
def staged_with_ids (st : MysqlStore) (fragments : List MemoryFragment) :
    List MemoryFragment :=
  ((fragments.map stage_importance).zip
    (mysql_save st (fragments.map stage_importance)).2).map
      (fun fi => { fi.1 with id := fi.2 })

/-- C1 (amended): if an embedding request fails after the relational insert
has committed, `append` fails the batch with an `Embedding` error — it does
not delete the committed relational rows and does not return a rollback
error — so every id assigned to the batch remains retrievable via `get`;
rows are deleted and a rollback error returned only when the vector-store
upsert fails. -/
theorem append_embedding_failure_keeps_rows (env : HybridEnv) (st : MysqlStore)
    (qst : QdrantStore) (fragments : List MemoryFragment) (e : Str)
    (hne : fragments ≠ [])
    (hwf : ∀ r ∈ st.rows, r.id < st.next_id)
    (hemb : generate_embeddings env.embed (staged_with_ids st fragments) =
      Except.error e) :
    (hybrid_append env st qst fragments).result =
      Except.error (HybridError.embedding e) ∧
    (hybrid_append env st qst fragments).mysql =
      ⟨st.rows ++ assign_rows st.next_id (fragments.map stage_importance),
        st.next_id + fragments.length⟩ ∧
    (hybrid_append env st qst fragments).qdrant = qst ∧
    ∀ id ∈ (mysql_save st (fragments.map stage_importance)).2,
      ∃ row, hybrid_get (hybrid_append env st qst fragments).mysql id =
        Except.ok row := by
  have he : fragments.isEmpty = false := by
    cases fragments with
    | nil => exact absurd rfl hne
    | cons a l => rfl
  rw [staged_with_ids] at hemb
  have hout : hybrid_append env st qst fragments =
      ⟨.error (.embedding e),
        (mysql_save st (fragments.map stage_importance)).1, qst, []⟩ := by
    simp only [hybrid_append, he, Bool.false_eq_true, if_false, hemb]
  rw [hout]
  rw [mysql_save_eq]
  refine ⟨rfl, by simp, rfl, ?_⟩
  intro id hid
  have hid' : id ∈ assigned_ids st.next_id (fragments.map stage_importance) := hid
  rcases (mem_assigned_ids _ _ _).mp hid' with ⟨k, hk, rfl⟩
  have hnone : st.rows.find? (fun r => r.id = st.next_id + k) = none := by
    refine List.find?_eq_none.mpr ?_
    intro r hr
    have := hwf r hr
    simp only [decide_eq_true_eq]
    have hcast : (0 : Int) ≤ (k : Int) := Int.natCast_nonneg k
    omega
  have hfind := find?_assign_rows (fragments.map stage_importance) st.next_id k hk
  refine ⟨{ (fragments.map stage_importance).get ⟨k, hk⟩ with
    id := st.next_id + k }, ?_⟩
  simp only [hybrid_get, mysql_get_one, List.find?_append, hnone, Option.none_or,
    hfind]

/-- Environment whose embedding engine always fails. -/
def embed_down_env : HybridEnv :=
  { embed := fun _ => Except.error ("down").data, qdrant_save_ok := true,
    mysql_delete_conn_fail := false }

/-- C1 (counterexample): with a failing embedding engine, `append` of a
one-fragment batch returns an `Embedding` error — not a rollback error — and
the assigned id 1 is still retrievable via `get` afterwards. -/
theorem embedding_failure_counterexample :
    (hybrid_append embed_down_env MysqlStore.empty QdrantStore.empty
        [modest_fragment]).result =
      Except.error (HybridError.embedding ("down").data) ∧
    (∀ i : Int, (hybrid_append embed_down_env MysqlStore.empty QdrantStore.empty
        [modest_fragment]).result ≠
      Except.error (HybridError.transactionRollback i)) ∧
    hybrid_get (hybrid_append embed_down_env MysqlStore.empty QdrantStore.empty
        [modest_fragment]).mysql 1 =
      Except.ok { stage_importance modest_fragment with id := 1 } := by
  refine ⟨rfl, ?_, rfl⟩
  intro i hcontra
  have h1 : (hybrid_append embed_down_env MysqlStore.empty QdrantStore.empty
      [modest_fragment]).result =
      Except.error (HybridError.embedding ("down").data) := rfl
  rw [h1] at hcontra
  simp at hcontra

/-- Witness for the amended C1 theorem at a concrete batch. -/
theorem append_embedding_failure_keeps_rows_witness :
    (hybrid_append embed_down_env MysqlStore.empty QdrantStore.empty
        [modest_fragment]).result =
      Except.error (HybridError.embedding ("down").data) ∧
    (hybrid_append embed_down_env MysqlStore.empty QdrantStore.empty
        [modest_fragment]).mysql =
      ⟨MysqlStore.empty.rows ++ assign_rows MysqlStore.empty.next_id
          ([modest_fragment].map stage_importance),
        MysqlStore.empty.next_id + ([modest_fragment] : List MemoryFragment).length⟩ ∧
    (hybrid_append embed_down_env MysqlStore.empty QdrantStore.empty
        [modest_fragment]).qdrant = QdrantStore.empty ∧
    ∀ id ∈ (mysql_save MysqlStore.empty ([modest_fragment].map stage_importance)).2,
      ∃ row, hybrid_get (hybrid_append embed_down_env MysqlStore.empty
        QdrantStore.empty [modest_fragment]).mysql id = Except.ok row :=
  append_embedding_failure_keeps_rows embed_down_env MysqlStore.empty
    QdrantStore.empty [modest_fragment] (("down").data) (by simp)
    (by intro r hr; simp [MysqlStore.empty] at hr) rfl

end Loom

namespace Loom

theorem mem_assign_rows_id (l : List MemoryFragment) :
    ∀ base r, r ∈ assign_rows base l → r.id ∈ assigned_ids base l := by
  intro base r hr
  have h2 : r.id ∈ (assign_rows base l).map MemoryFragment.id :=
    List.mem_map_of_mem _ hr
  rwa [assign_rows_map_id] at h2

/-- C2: when the vector-store upsert fails, `append` rolls back: it returns
`TransactionRollback` carrying the first assigned id; if the rollback delete
succeeds, the relational rows return to their pre-call contents (only the
auto-increment counter has advanced), no assigned id is retrievable via
`get`, the vector store is untouched and holds no assigned id, every
subsequent recall returns no fragment with an assigned id, and no critical
log is emitted; if the rollback delete itself fails, the CRITICAL log entry
naming the assigned ids is emitted and the rollback error is still
surfaced. -/
theorem append_upsert_failure_rolls_back (env : HybridEnv) (st : MysqlStore)
    (qst : QdrantStore) (fragments : List MemoryFragment) (embs : List (List Int))
    (hne : fragments ≠ [])
    (hwf : ∀ r ∈ st.rows, r.id < st.next_id)
    (hwq : ∀ p ∈ qst.points, p.id < st.next_id)
    (hemb : generate_embeddings env.embed (staged_with_ids st fragments) =
      Except.ok embs)
    (hq : env.qdrant_save_ok = false) :
    (hybrid_append env st qst fragments).result =
      Except.error (HybridError.transactionRollback st.next_id) ∧
    (hybrid_append env st qst fragments).qdrant = qst ∧
    (∀ id ∈ (mysql_save st (fragments.map stage_importance)).2,
      id ∉ (hybrid_append env st qst fragments).qdrant.ids) ∧
    (env.mysql_delete_conn_fail = false →
      (hybrid_append env st qst fragments).mysql.rows = st.rows ∧
      (∀ id ∈ (mysql_save st (fragments.map stage_importance)).2,
        hybrid_get (hybrid_append env st qst fragments).mysql id =
          Except.error (HybridError.mysql (MysqlError.notFound id))) ∧
      (∀ (embed2 : Str → Except Str (List Int))
          (dist : List Int → QdrantPoint → Int) (keywords : Str)
          (res : List MemoryFragment),
        hybrid_recall embed2 dist (hybrid_append env st qst fragments).mysql
          (hybrid_append env st qst fragments).qdrant keywords = Except.ok res →
        ∀ f ∈ res, f.id ∉ (mysql_save st (fragments.map stage_importance)).2) ∧
      (hybrid_append env st qst fragments).logs = []) ∧
    (env.mysql_delete_conn_fail = true →
      (hybrid_append env st qst fragments).logs =
        [LogEntry.criticalRollbackFailure
          (mysql_save st (fragments.map stage_importance)).2]) := by
  have he : fragments.isEmpty = false := by
    cases fragments with
    | nil => exact absurd rfl hne
    | cons a l => rfl
  rw [staged_with_ids] at hemb
  have hsne : fragments.map stage_importance ≠ [] := by
    cases fragments with
    | nil => exact absurd rfl hne
    | cons a l => simp
  have hids : (mysql_save st (fragments.map stage_importance)).2 =
      assigned_ids st.next_id (fragments.map stage_importance) := by
    rw [mysql_save_eq]
  have hids_lower : ∀ id ∈ (mysql_save st (fragments.map stage_importance)).2,
      st.next_id ≤ id := by
    intro id hid
    rw [hids] at hid
    exact assigned_ids_lower _ _ _ hid
  have hhead : (mysql_save st (fragments.map stage_importance)).2.headD 0 =
      st.next_id := by
    rw [hids]
    cases fragments with
    | nil => exact absurd rfl hne
    | cons a l => rfl
  -- the state after the relational commit
  have hst1 : (mysql_save st (fragments.map stage_importance)).1 =
      ⟨st.rows ++ assign_rows st.next_id (fragments.map stage_importance),
        st.next_id + (fragments.map stage_importance).length⟩ := by
    rw [mysql_save_eq]
  -- the rollback delete, when the backend is healthy
  have hdel : mysql_delete false (mysql_save st (fragments.map stage_importance)).1
      (mysql_save st (fragments.map stage_importance)).2 =
      Except.ok ⟨st.rows, st.next_id + (fragments.map stage_importance).length⟩ := by
    rw [hst1, hids]
    simp only [mysql_delete, if_false, Bool.false_eq_true]
    rw [List.filter_append]
    have hkeep : st.rows.filter
        (fun r => r.id ∉ assigned_ids st.next_id (fragments.map stage_importance))
          = st.rows := by
      rw [List.filter_eq_self]
      intro r hr
      simp only [decide_not, Bool.not_eq_eq_eq_not, Bool.not_true,
        decide_eq_false_iff_not]
      intro hmem
      have h1 := hwf r hr
      have h2 := assigned_ids_lower _ _ _ hmem
      omega
    have hdrop : (assign_rows st.next_id (fragments.map stage_importance)).filter
        (fun r => r.id ∉ assigned_ids st.next_id (fragments.map stage_importance))
          = [] := by
      rw [List.filter_eq_nil_iff]
      intro r hr
      simp only [decide_not, Bool.not_eq_eq_eq_not, Bool.not_true, Bool.not_eq_true,
        decide_eq_false_iff_not, Decidable.not_not]
      exact mem_assign_rows_id _ _ _ hr
    rw [hkeep, hdrop]
    have hlen : (st.rows ++ []).length ≠
        (st.rows ++ assign_rows st.next_id (fragments.map stage_importance)).length := by
      simp only [List.length_append, List.length_nil]
      rw [assign_rows_length]
      have : (fragments.map stage_importance).length ≠ 0 := by
        simpa [List.length_eq_zero] using hsne
      omega
    simp only [List.append_nil] at hlen ⊢
    rw [if_neg (by simpa using hlen)]
  rcases hcf : env.mysql_delete_conn_fail with _ | _
  · -- healthy rollback delete
    have hout : hybrid_append env st qst fragments =
        ⟨.error (.transactionRollback
            ((mysql_save st (fragments.map stage_importance)).2.headD 0)),
          ⟨st.rows, st.next_id + (fragments.map stage_importance).length⟩, qst, []⟩ := by
      simp only [hybrid_append, he, Bool.false_eq_true, if_false, hemb, hq, hcf, hdel]
    rw [hout, hhead]
    refine ⟨rfl, rfl, ?_, ?_, by intro hcontra; cases hcontra⟩
    · intro id hid hqmem
      rcases List.mem_map.mp hqmem with ⟨p, hp, rfl⟩
      have h1 := hwq p hp
      have h2 := hids_lower _ hid
      omega
    · intro _
      refine ⟨rfl, ?_, ?_, rfl⟩
      · intro id hid
        have hnone : st.rows.find? (fun r => r.id = id) = none := by
          refine List.find?_eq_none.mpr ?_
          intro r hr
          have h1 := hwf r hr
          have h2 := hids_lower _ hid
          simp only [decide_eq_true_eq]
          omega
        simp only [hybrid_get, mysql_get_one, hnone]
      · intro embed2 dist keywords res hres f hf hid
        rcases hqv : embed2 keywords with e2 | qv
        · simp only [hybrid_recall, hqv] at hres
          simp at hres
        · simp only [hybrid_recall, hqv] at hres
          by_cases hempty : (search_similar qst (dist qv) 10).isEmpty
          · simp only [hempty, if_true] at hres
            simp only [Except.ok.injEq] at hres
            subst hres
            simp at hf
          · simp only [hempty, Bool.false_eq_true, if_false] at hres
            simp only [Except.ok.injEq] at hres
            subst hres
            have hfrow : f ∈ st.rows := List.mem_of_mem_filter hf
            have h1 := hwf f hfrow
            have h2 := hids_lower _ hid
            omega
  · -- the rollback delete itself fails
    have hdelf : mysql_delete true (mysql_save st (fragments.map stage_importance)).1
        (mysql_save st (fragments.map stage_importance)).2 =
        Except.error MysqlError.connection := rfl
    have hout : hybrid_append env st qst fragments =
        ⟨.error (.transactionRollback
            ((mysql_save st (fragments.map stage_importance)).2.headD 0)),
          (mysql_save st (fragments.map stage_importance)).1, qst,
          [LogEntry.criticalRollbackFailure
            (mysql_save st (fragments.map stage_importance)).2]⟩ := by
      simp only [hybrid_append, he, Bool.false_eq_true, if_false, hemb, hq, hcf, hdelf]
    rw [hout, hhead]
    refine ⟨rfl, rfl, ?_, ?_, ?_⟩
    · intro id hid hqmem
      rcases List.mem_map.mp hqmem with ⟨p, hp, rfl⟩
      have h1 := hwq p hp
      have h2 := hids_lower _ hid
      omega
    · intro hcontra
      cases hcontra
    · intro _
      rfl

end Loom

namespace Loom

/-- Environment whose vector-store upsert fails while embedding and the
rollback delete succeed. -/
def upsert_down_env : HybridEnv :=
  { embed := fun _ => Except.ok [0], qdrant_save_ok := false,
    mysql_delete_conn_fail := false }

/-- Witness for the C2 rollback theorem at a concrete one-fragment batch. -/
theorem append_upsert_failure_rolls_back_witness :
    (hybrid_append upsert_down_env MysqlStore.empty QdrantStore.empty
        [modest_fragment]).result =
      Except.error (HybridError.transactionRollback MysqlStore.empty.next_id) ∧
    (hybrid_append upsert_down_env MysqlStore.empty QdrantStore.empty
        [modest_fragment]).qdrant = QdrantStore.empty ∧
    (∀ id ∈ (mysql_save MysqlStore.empty ([modest_fragment].map stage_importance)).2,
      id ∉ (hybrid_append upsert_down_env MysqlStore.empty QdrantStore.empty
        [modest_fragment]).qdrant.ids) ∧
    (upsert_down_env.mysql_delete_conn_fail = false →
      (hybrid_append upsert_down_env MysqlStore.empty QdrantStore.empty
        [modest_fragment]).mysql.rows = MysqlStore.empty.rows ∧
      (∀ id ∈ (mysql_save MysqlStore.empty ([modest_fragment].map stage_importance)).2,
        hybrid_get (hybrid_append upsert_down_env MysqlStore.empty QdrantStore.empty
          [modest_fragment]).mysql id =
            Except.error (HybridError.mysql (MysqlError.notFound id))) ∧
      (∀ (embed2 : Str → Except Str (List Int))
          (dist : List Int → QdrantPoint → Int) (keywords : Str)
          (res : List MemoryFragment),
        hybrid_recall embed2 dist (hybrid_append upsert_down_env MysqlStore.empty
            QdrantStore.empty [modest_fragment]).mysql
          (hybrid_append upsert_down_env MysqlStore.empty QdrantStore.empty
            [modest_fragment]).qdrant keywords = Except.ok res →
        ∀ f ∈ res, f.id ∉
          (mysql_save MysqlStore.empty ([modest_fragment].map stage_importance)).2) ∧
      (hybrid_append upsert_down_env MysqlStore.empty QdrantStore.empty
        [modest_fragment]).logs = []) ∧
    (upsert_down_env.mysql_delete_conn_fail = true →
      (hybrid_append upsert_down_env MysqlStore.empty QdrantStore.empty
        [modest_fragment]).logs =
          [LogEntry.criticalRollbackFailure
            (mysql_save MysqlStore.empty ([modest_fragment].map stage_importance)).2]) :=
  append_upsert_failure_rolls_back upsert_down_env MysqlStore.empty
    QdrantStore.empty [modest_fragment] [[0]] (by simp)
    (by intro r hr; simp [MysqlStore.empty] at hr)
    (by intro p hp; simp [QdrantStore.empty] at hp) rfl rfl

end Loom

namespace Loom

/-- C6 (amended): for every recall whose keyword embedding succeeds, the call
returns exactly the relational rows whose ids appear in the vector-search
result, in relational table order — the source performs no re-ordering to
vector rank order — and searched ids lacking a relational row are silently
skipped (the result simply omits them; no error). -/
theorem recall_materializes_in_table_order (embed : Str → Except Str (List Int))
    (dist : List Int → QdrantPoint → Int) (st : MysqlStore) (qst : QdrantStore)
    (keywords : Str) (qv : List Int)
    (hqv : embed keywords = Except.ok qv) :
    hybrid_recall embed dist st qst keywords =
      Except.ok (mysql_get st (search_similar qst (dist qv) 10)) ∧
    (mysql_get st (search_similar qst (dist qv) 10)).Sublist st.rows ∧
    (∀ r ∈ st.rows, (r ∈ mysql_get st (search_similar qst (dist qv) 10) ↔
      r.id ∈ search_similar qst (dist qv) 10)) := by
  refine ⟨?_, ?_, ?_⟩
  · simp only [hybrid_recall, hqv]
    by_cases hempty : (search_similar qst (dist qv) 10).isEmpty
    · have hnil : search_similar qst (dist qv) 10 = [] := by
        cases hs : search_similar qst (dist qv) 10 with
        | nil => rfl
        | cons a l => rw [hs] at hempty; simp at hempty
      simp [hempty, hnil, mysql_get]
    · simp [hempty]
  · exact List.filter_sublist _
  · intro r hr
    simp [mysql_get, List.mem_filter, hr]

/-- Two distinct relational rows, in table order `[frag_one, frag_two]`. -/
def frag_one : MemoryFragment := { modest_fragment with id := 1, content := ("one").data }

def frag_two : MemoryFragment := { modest_fragment with id := 2, content := ("two").data }

def table_store : MysqlStore := ⟨[frag_one, frag_two], 3⟩

def vec_store : QdrantStore := ⟨[⟨1, [0]⟩, ⟨2, [0]⟩]⟩

/-- A ranking under which id 2 is the nearest neighbor. -/
def rank_two_first : List Int → QdrantPoint → Int :=
  fun _ p => if p.id = 2 then 0 else 1

/-- C6 (counterexample): the vector search ranks id 2 first, yet recall
returns the rows in relational table order `[frag_one, frag_two]`, not in
rank order `[frag_two, frag_one]`. -/
theorem recall_rank_order_counterexample :
    search_similar vec_store (rank_two_first [0]) 10 = [2, 1] ∧
    hybrid_recall (fun _ => Except.ok [0]) rank_two_first table_store vec_store
      (("q").data) = Except.ok [frag_one, frag_two] ∧
    [frag_one, frag_two] ≠ [frag_two, frag_one] := by
  refine ⟨rfl, rfl, by decide⟩

/-- Witness for the amended C6 theorem at a concrete store pair. -/
theorem recall_materializes_in_table_order_witness :
    hybrid_recall (fun _ => Except.ok [0]) rank_two_first table_store vec_store
      (("q").data) =
      Except.ok (mysql_get table_store
        (search_similar vec_store (rank_two_first [0]) 10)) ∧
    (mysql_get table_store
      (search_similar vec_store (rank_two_first [0]) 10)).Sublist table_store.rows ∧
    (∀ r ∈ table_store.rows, (r ∈ mysql_get table_store
        (search_similar vec_store (rank_two_first [0]) 10) ↔
      r.id ∈ search_similar vec_store (rank_two_first [0]) 10)) :=
  recall_materializes_in_table_order (fun _ => Except.ok [0]) rank_two_first
    table_store vec_store (("q").data) [0] rfl

end Loom

namespace Agent

/-- `StateTransition` from `epha-agent` `state_machine/state.rs`. -/
structure StateTransition where
  from_state : Str
  to_state : Str
  round_count : Nat
  reason : Str
deriving DecidableEq, Repr

/-- `StateRoundTracker` from `state.rs`: the per-state counts map is an
association list in insertion order (`HashMap` iteration order is never
observed by the embedded operations). -/
structure StateRoundTracker where
  current_round : Nat
  current_state : Str
  state_round_counts : List (Str × Nat)
  global_round_count : Nat
  transition_history : List StateTransition
deriving DecidableEq, Repr

/-- `StateRoundTracker::new`. -/
def StateRoundTracker.new (initial_state : Str) : StateRoundTracker :=
  ⟨0, initial_state, [(initial_state, 0)], 0, []⟩

/-- `HashMap::entry(..).or_insert(0) += delta` on the association list. -/
def or_insert_add (counts : List (Str × Nat)) (name : Str) (delta : Nat) :
    List (Str × Nat) :=
  if counts.any (fun p => p.1 = name) then
    counts.map (fun p => if p.1 = name then (p.1, p.2 + delta) else p)
  else counts ++ [(name, delta)]

/-- `StateRoundTracker::increment_round`. -/
def StateRoundTracker.increment_round (t : StateRoundTracker) : StateRoundTracker :=
  { t with
    current_round := t.current_round + 1
    global_round_count := t.global_round_count + 1
    state_round_counts := or_insert_add t.state_round_counts t.current_state 1 }

/-- `StateRoundTracker::transition_to`: records the transition, resets the
current counter, returns the previous per-state round count. -/
def StateRoundTracker.transition_to (t : StateRoundTracker) (new_state reason : Str) :
    StateRoundTracker × Nat :=
  let previous_round_count := t.current_round
  let tr : StateTransition :=
    ⟨t.current_state, new_state, previous_round_count, reason⟩
  ({ t with
      transition_history := t.transition_history ++ [tr]
      current_state := new_state
      current_round := 0
      state_round_counts := or_insert_add t.state_round_counts new_state 0 },
    previous_round_count)

/-- The backwards walk of `rounds_since_last_visit`: sum `round_count` over
the reversed history until a transition *to* `name` is found. -/
def since_walk (name : Str) : List StateTransition → Nat → Option Nat
  | [], _ => none
  | tr :: rest, acc =>
    if tr.to_state = name then some acc else since_walk name rest (acc + tr.round_count)

/-- `StateRoundTracker::rounds_since_last_visit`: the walk's sum when a
transition to `name` exists, otherwise the global round count (the source
always returns `Some`). -/
def StateRoundTracker.rounds_since_last_visit (t : StateRoundTracker) (name : Str) :
    Option Nat :=
  match since_walk name t.transition_history.reverse 0 with
  | some r => some r
  | none => some t.global_round_count

/-- A state as the claims need it: its name (`prompt_data.name` — the file
stem) and the optional round-interval constraints; prompts and the bound
completion agent are irrelevant to the scheduling claims. -/
structure State where
  name : Str
  min_round_interval : Option Nat
  max_round_interval : Option Nat
deriving DecidableEq, Repr

/-- `StateError` from `state.rs`. -/
inductive StateError where
  | stateNotFound : Str → StateError
  | invalidTransition : Str → StateError
  | configurationError : Str → StateError
deriving DecidableEq, Repr

/-- `StateMachine` from `state_machine.rs`. -/
structure StateMachine where
  states : List State
  current_state_name : Str
  tracker : StateRoundTracker
deriving DecidableEq, Repr

/-- `StateMachine::find_state`. -/
def find_state (sm : StateMachine) (name : Str) : Option State :=
  sm.states.find? (fun s => s.name = name)

/-- `StateMachine::transition_to` (the `force_transition_to` body is
identical). -/
def transition_to (sm : StateMachine) (state_name reason : Str) :
    Except StateError (StateMachine × Nat) :=
  match find_state sm state_name with
  | none => .error (.stateNotFound state_name)
  | some _ =>
    let step := sm.tracker.transition_to state_name reason
    .ok ({ sm with tracker := step.1, current_state_name := state_name }, step.2)

/-- The reason string format of `get_forced_transitions`. -/
def forced_reason (max_interval : Nat) (name : Str) (rounds_since : Nat) : Str :=
  ("Maximum round interval (").data ++ natToChars max_interval
    ++ (" rounds) reached for state '").data ++ name
    ++ ("'. Last visited ").data ++ natToChars rounds_since
    ++ (" rounds ago.").data

/-- `StateMachine::get_forced_transitions`. -/
def get_forced_transitions (sm : StateMachine) : List (Str × Str) :=
  sm.states.filterMap (fun s =>
    match s.max_round_interval with
    | none => none
    | some max_interval =>
      match sm.tracker.rounds_since_last_visit s.name with
      | none => none
      | some rounds_since =>
        if max_interval ≤ rounds_since then
          some (s.name, forced_reason max_interval s.name rounds_since)
        else none)

/-- The `state_transition` tool (`epha-ai` `tools/state_machine.rs`): target
must exist (error text, no transition), self-transitions are refused with an
info text, and otherwise `StateMachine::transition_to` runs; every outcome is
returned to the LLM as an `Ok` string. -/
def state_transition_tool (sm : StateMachine) (target reason : Str) :
    StateMachine × Str :=
  match find_state sm target with
  | none => (sm, ("Error: Target state does not exist: ").data ++ target)
  | some _ =>
    if sm.current_state_name = target then
      (sm, ("Info: Already in state: ").data ++ target)
    else
      match transition_to sm target reason with
      | .ok (sm', _) => (sm', ("Successfully transitioned to: ").data ++ target)
      | .error _ => (sm, ("Failed to transition: ").data ++ target)

/-- One agent round as `EphemeraAI::run`/`execute_current_round` drives it:
the round serializes the context and executes the current state's completion
agent, whose tool calls (the oracle's choices) may invoke the
`state_transition` tool; the loop itself never calls `increment_round`,
`get_forced_transitions` or `force_transition_to` (no caller of those exists
in the agent loop), so this is the round's entire effect on the machine. -/
def execute_round (sm : StateMachine) (toolCalls : List (Str × Str)) : StateMachine :=
  toolCalls.foldl (fun m tc => (state_transition_tool m tc.1 tc.2).1) sm

/-- `EphemeraAI::run`: rounds in sequence, the `oracle` giving each round's
tool calls. -/
def run_rounds (sm : StateMachine) (oracle : Nat → List (Str × Str)) :
    Nat → StateMachine
  | 0 => sm
  | Nat.succ n => execute_round (run_rounds sm oracle n) (oracle n)

end Agent

namespace Agent

/-- C3 (amended): at any point, `get_forced_transitions` lists exactly the
states whose `rounds_since_last_visit` has reached their `max_round_interval`,
with a reason naming the interval and the rounds since the last visit — but
nothing in the agent loop ever invokes the forced-transition machinery (or
`increment_round`): a run in which the per-state agents issue no transition
tool calls leaves the machine unchanged for any number of rounds, so no bound
of k+1 rounds on visiting a state with `max_round_interval = k` holds. -/
theorem forced_transitions_computed_but_never_applied :
    (∀ (sm : StateMachine) (name reason : Str),
      (name, reason) ∈ get_forced_transitions sm ↔
        ∃ s ∈ sm.states, ∃ k r : Nat,
          s.max_round_interval = some k ∧
          sm.tracker.rounds_since_last_visit s.name = some r ∧
          k ≤ r ∧ name = s.name ∧ reason = forced_reason k s.name r) ∧
    (∀ (sm : StateMachine) (n : Nat), run_rounds sm (fun _ => []) n = sm) := by
  constructor
  · intro sm name reason
    constructor
    · intro hmem
      rcases List.mem_filterMap.mp hmem with ⟨s, hs, hf⟩
      rcases hmax : s.max_round_interval with _ | k
      · simp [hmax] at hf
      · simp only [hmax] at hf
        rcases hr : sm.tracker.rounds_since_last_visit s.name with _ | r
        · simp [hr] at hf
        · simp only [hr] at hf
          by_cases hk : k ≤ r
          · rw [if_pos hk] at hf
            simp only [Option.some.injEq, Prod.mk.injEq] at hf
            exact ⟨s, hs, k, r, hmax, hr, hk, hf.1.symm, hf.2.symm⟩
          · rw [if_neg hk] at hf
            cases hf
    · rintro ⟨s, hs, k, r, hmax, hr, hk, rfl, rfl⟩
      refine List.mem_filterMap.mpr ⟨s, hs, ?_⟩
      simp only [hmax, hr]
      rw [if_pos hk]
  · intro sm n
    induction n with
    | zero => rfl
    | succ m ih => simp only [run_rounds, ih]; rfl

/-- The canonical demo machine of spec scenario E4: `reasoning` with no
interval, `perception` with `max_round_interval = 1`, initial `reasoning`. -/
def perception_state : State := ⟨("perception").data, none, some 1⟩

def reasoning_state : State := ⟨("reasoning").data, none, none⟩

def demo_sm : StateMachine :=
  ⟨[reasoning_state, perception_state], ("reasoning").data,
    StateRoundTracker.new (("reasoning").data)⟩

/-- C3 (counterexample): `perception` has `max_round_interval = 1`, yet after
5 rounds in which the reasoning agent requests no transition, no transition
to `perception` (indeed none at all) has been scheduled — well past the
claimed k+1 = 2 round bound — and the forced-transition query itself still
fires nothing because the loop never advances any round counter. -/
theorem forced_transition_never_scheduled_counterexample :
    perception_state.max_round_interval = some 1 ∧
    (run_rounds demo_sm (fun _ => []) 5).tracker.transition_history = [] ∧
    (run_rounds demo_sm (fun _ => []) 5).current_state_name = ("reasoning").data ∧
    get_forced_transitions (run_rounds demo_sm (fun _ => []) 5) = [] := by
  refine ⟨rfl, rfl, rfl, rfl⟩

end Agent

namespace Epha

/-- `MemorySource` of the `loom_client::memory` fragment type used by the
agent. Modelled from the spec: `loom-client/src/memory.rs` is absent from the
snapshot; §3 gives `{ channel, identifier, metadata }`, matching the
`psyche/loom` `memory/types.rs` twin. -/
structure MemorySource where
  channel : Str
  identifier : Str
  metadata : List (Str × Str)
deriving DecidableEq, Repr

/-- `MemorySource::action` from `memory/types.rs`. -/
def MemorySource.action (action_type : Str) : MemorySource :=
  ⟨("action").data, ("self_action").data, [(("type").data, action_type)]⟩

/-- Subjective metadata of the agent-side fragment; `Default::default()`
zeroes the numeric fields and empties the collections. -/
structure SubjectiveMetadata where
  importance : Nat
  confidence : Nat
  tags : List Str
  notes : Str
deriving DecidableEq, Repr

def SubjectiveMetadata.default : SubjectiveMetadata := ⟨0, 0, [], []⟩

/-- Objective metadata of the agent-side fragment: `created_at` is a unix
timestamp in seconds (`OffsetDateTime::unix_timestamp()` feeds it in
`tools/memory.rs`). -/
structure ObjectiveMetadata where
  created_at : Int
  source : MemorySource
deriving DecidableEq, Repr

/-- The agent-side `MemoryFragment` (`loom_client::memory::MemoryFragment`).
Modelled from the spec (§3) and its uses in `tools/memory.rs` and
`context/memory_fragment_list.rs`; the defining file is absent from the
snapshot. -/
structure MemoryFragment where
  id : Int
  content : Str
  subjective_metadata : SubjectiveMetadata
  objective_metadata : ObjectiveMetadata
  associations : List Int
deriving DecidableEq, Repr

/-- Left-pad a decimal rendering with zeros to `width`. -/
def padLeft (width : Nat) (n : Nat) : Str :=
  let d := natToChars n
  List.replicate (width - d.length) '0' ++ d

/-- `MemoryFragmentList::format_datetime`: the time crate's rendering of the
instant under `[year]-[month]-[day]T[hour]:[minute]:[second].[subsecond
digits:3]Z`. Modelled from the spec ("ISO-8601 with millisecond precision"):
the conversion from a unix timestamp in whole seconds to the proleptic
Gregorian calendar (civil-from-days), with the subsecond field always 000. -/
def format_datetime (ts : Int) : Str :=
  let days : Int := ts.fdiv 86400
  let secsOfDay : Nat := (ts - days * 86400).toNat
  let z : Int := days + 719468
  let era : Int := z.fdiv 146097
  let doe : Nat := (z - era * 146097).toNat
  let yoe : Nat := (doe - doe / 1460 + doe / 36524 - doe / 146096) / 365
  let y : Int := era * 400 + yoe
  let doy : Nat := doe - (365 * yoe + yoe / 4 - yoe / 100)
  let mp : Nat := (5 * doy + 2) / 153
  let d : Nat := doy - (153 * mp + 2) / 5 + 1
  let m : Nat := if mp < 10 then mp + 3 else mp - 9
  let year : Int := if m ≤ 2 then y + 1 else y
  let hour := secsOfDay / 3600
  let minute := secsOfDay % 3600 / 60
  let second := secsOfDay % 60
  padLeft 4 year.toNat ++ ('-' :: padLeft 2 m) ++ ('-' :: padLeft 2 d)
    ++ ('T' :: padLeft 2 hour) ++ (':' :: padLeft 2 minute)
    ++ (':' :: padLeft 2 second) ++ ('.' :: padLeft 3 0) ++ [('Z')]

/-- `MemoryFragmentList::serialize_memory` from `memory_fragment_list.rs`:
the seven labelled lines. -/
def serialize_memory (memory : MemoryFragment) : Str :=
  ("Memory ID: ").data ++ intToChars memory.id
  ++ ("\nCreated: ").data ++ format_datetime memory.objective_metadata.created_at
  ++ ("\nSource: ").data ++ memory.objective_metadata.source.channel
    ++ ("::").data ++ memory.objective_metadata.source.identifier
  ++ ("\nImportance: ").data ++ natToChars memory.subjective_metadata.importance
    ++ ("/255").data
  ++ ("\nConfidence: ").data ++ natToChars memory.subjective_metadata.confidence
    ++ ("/255").data
  ++ ("\nTags: ").data
    ++ List.intercalate ((", ").data) memory.subjective_metadata.tags
  ++ ("\nContent: ").data ++ memory.content

/-- `MemoryFragmentList::serialize`: the empty-list text, or the header and
the `---`-separated fragments. -/
def memory_fragment_list_serialize (memories : List MemoryFragment) : Str :=
  if memories.isEmpty then ("No memories found.").data
  else ("Found ").data ++ natToChars memories.length ++ (" memories:\n\n").data
    ++ List.intercalate (("\n---\n").data) (memories.map serialize_memory)

/-- `EphemeraContext` from `context/ephemera_context.rs` (the loom client
handle is omitted: the fire-and-forget persist it serves never feeds back
into this state). `recent_activities` is the deque, head = oldest. -/
structure EphemeraContext where
  memory_context : List MemoryFragment
  recent_activities : List MemoryFragment
  current_token_usage : Nat
  max_token_limit : Nat
deriving DecidableEq, Repr

/-- `EphemeraContext::new`: 30 000-token default limit. -/
def EphemeraContext.new : EphemeraContext := ⟨[], [], 0, 30000⟩

/-- `EphemeraContext::estimate_tokens`: `text.chars().count() / 4`. -/
def estimate_tokens (text : Str) : Nat := text.length / 4

/-- `EphemeraContext::calculate_fragment_tokens`: the cost of a fragment is
the estimate over its actual serialized form as a one-element list. -/
def calculate_fragment_tokens (fragment : MemoryFragment) : Nat :=
  estimate_tokens (memory_fragment_list_serialize [fragment])

/-- `EphemeraContext::maintain_token_limit`: pop from the head while the
usage exceeds the limit and the queue is non-empty, subtracting the popped
fragment's (re-computed) cost with saturating subtraction. -/
def maintain_token_limit (usage limit : Nat) :
    List MemoryFragment → Nat × List MemoryFragment
  | [] => (usage, [])
  | g :: rest =>
    if limit < usage then
      maintain_token_limit (usage - calculate_fragment_tokens g) limit rest
    else (usage, g :: rest)

/-- `EphemeraContext::add_activity`: charge the fragment's cost, enqueue a
copy whose id is zeroed (`temp_fragment.id = 0`), then maintain the limit.
The spawned fire-and-forget persist to Loom has no effect on this state and
its failures are only logged. -/
def add_activity (ctx : EphemeraContext) (fragment : MemoryFragment) :
    EphemeraContext :=
  let fragment_tokens := calculate_fragment_tokens fragment
  let temp_fragment := { fragment with id := 0 }
  let m := maintain_token_limit (ctx.current_token_usage + fragment_tokens)
    ctx.max_token_limit (ctx.recent_activities ++ [temp_fragment])
  { ctx with current_token_usage := m.1, recent_activities := m.2 }

/-- `EphemeraContext::set_token_limit`: store the new limit and re-run the
eviction loop. -/
def set_token_limit (ctx : EphemeraContext) (max_limit : Nat) : EphemeraContext :=
  let m := maintain_token_limit ctx.current_token_usage max_limit
    ctx.recent_activities
  { ctx with
    max_token_limit := max_limit
    current_token_usage := m.1
    recent_activities := m.2 }

/-- The summary fragment `add_memory_context` builds through `from_action`
with importance 110, confidence 255 and the `memory_selection` tag (the
builder lives in the absent `loom-client/src/memory.rs`; modelled from the
spec's "synthetic action-channel fragment whose content includes the count
and summary, tagged memory_selection" and the JSON literal at the call
site). `now` stands for the builder's creation instant. -/
def summary_fragment (memory_count : Nat) (summary : Str) (now : Int) :
    MemoryFragment :=
  { id := 0
  , content := ("Added ").data ++ natToChars memory_count
      ++ (" memories to context. Summary: ").data ++ summary
  , subjective_metadata :=
      { importance := 110, confidence := 255,
        tags := [("memory_selection").data], notes := [] }
  , objective_metadata :=
      { created_at := now, source := MemorySource.action (("context_update").data) }
  , associations := [] }

/-- `EphemeraContext::add_memory_context`: insert each fragment unless an
entry with the same id is already present (checked against the growing
list), then add the summary activity. -/
def add_memory_context (ctx : EphemeraContext) (summary : Str)
    (memories : List MemoryFragment) (now : Int) : EphemeraContext :=
  let memory_count := memories.length
  let mc := memories.foldl
    (fun acc m => if acc.any (fun x => x.id = m.id) then acc else acc ++ [m])
    ctx.memory_context
  add_activity { ctx with memory_context := mc }
    (summary_fragment memory_count summary now)

end Epha

namespace Epha

theorem maintain_le_or_nil (limit : Nat) :
    ∀ (q : List MemoryFragment) (usage : Nat),
      (maintain_token_limit usage limit q).1 ≤ limit ∨
      (maintain_token_limit usage limit q).2 = [] := by
  intro q
  induction q with
  | nil => intro usage; right; rfl
  | cons g rest ih =>
    intro usage
    by_cases h : limit < usage
    · simpa [maintain_token_limit, h] using ih (usage - calculate_fragment_tokens g)
    · left
      simp only [maintain_token_limit, h, if_false]
      omega

theorem maintain_suffix (limit : Nat) :
    ∀ (q : List MemoryFragment) (usage : Nat),
      (maintain_token_limit usage limit q).2 <:+ q := by
  intro q
  induction q with
  | nil => intro usage; exact List.suffix_refl _
  | cons g rest ih =>
    intro usage
    by_cases h : limit < usage
    · simp only [maintain_token_limit, h, if_true]
      exact (ih (usage - calculate_fragment_tokens g)).trans (List.suffix_cons g rest)
    · simp only [maintain_token_limit, h, if_false]
      exact List.suffix_refl _

theorem suffix_append_right {α : Type} {s t : List α} (h : s <:+ t) (u : List α) :
    s ++ u <:+ t ++ u := by
  rcases h with ⟨w, rfl⟩
  exact ⟨w, (List.append_assoc _ _ _).symm⟩

/-- C4 (amended): after every `add_activity` call, either the token usage is
within the limit or the queue has been fully drained (the eviction loop
re-computes each popped fragment's cost on the id-zeroed stored copy, so a
residual usage above the limit can remain once the queue is empty); the
queue is always a suffix of the id-zeroed insertion order, evicted
oldest-first from the head; the token limit is never changed by additions;
and the cost charged for a fragment is the character count of its actual
serialized one-element-list form divided by 4. -/
theorem add_activity_budget_and_suffix :
    (∀ (ctx : EphemeraContext) (f : MemoryFragment),
      (add_activity ctx f).current_token_usage ≤
        (add_activity ctx f).max_token_limit ∨
      (add_activity ctx f).recent_activities = []) ∧
    (∀ (ctx0 : EphemeraContext) (fs : List MemoryFragment),
      (fs.foldl add_activity ctx0).recent_activities <:+
        ctx0.recent_activities ++ fs.map (fun f => { f with id := 0 })) ∧
    (∀ (ctx0 : EphemeraContext) (fs : List MemoryFragment),
      (fs.foldl add_activity ctx0).max_token_limit = ctx0.max_token_limit) ∧
    (∀ f : MemoryFragment, calculate_fragment_tokens f =
      (memory_fragment_list_serialize [f]).length / 4) := by
  have hsuf : ∀ (ctx : EphemeraContext) (f : MemoryFragment),
      (add_activity ctx f).recent_activities <:+
        ctx.recent_activities ++ [{ f with id := 0 }] := by
    intro ctx f
    exact maintain_suffix _ _ _
  have hlim : ∀ (ctx : EphemeraContext) (f : MemoryFragment),
      (add_activity ctx f).max_token_limit = ctx.max_token_limit := by
    intro ctx f
    rfl
  refine ⟨?_, ?_, ?_, ?_⟩
  · intro ctx f
    rcases maintain_le_or_nil ctx.max_token_limit
        (ctx.recent_activities ++ [{ f with id := 0 }])
        (ctx.current_token_usage + calculate_fragment_tokens f) with h | h
    · left
      exact h
    · right
      exact h
  · intro ctx0 fs
    induction fs generalizing ctx0 with
    | nil => simp
    | cons f fs ih =>
      have step := ih (add_activity ctx0 f)
      have h1 : (add_activity ctx0 f).recent_activities ++
          fs.map (fun g => { g with id := 0 }) <:+
          (ctx0.recent_activities ++ [{ f with id := 0 }]) ++
            fs.map (fun g => { g with id := 0 }) :=
        suffix_append_right (hsuf ctx0 f) _
      have h2 := step.trans h1
      simpa [List.append_assoc] using h2
  · intro ctx0 fs
    induction fs generalizing ctx0 with
    | nil => rfl
    | cons f fs ih => simpa [List.foldl_cons, hlim] using ih (add_activity ctx0 f)
  · intro f
    rfl

/-- Concrete activity fragment whose serialized form has 136 characters with
its id 10 but 135 once the stored copy's id is zeroed: the charge is 34
tokens, the eviction refund only 33. -/
def c4_fragment : MemoryFragment :=
  { id := 10
  , content := ("wxyz").data
  , subjective_metadata := { importance := 0, confidence := 0, tags := [], notes := [] }
  , objective_metadata := { created_at := 0, source :=
      { channel := ("a").data, identifier := ("b").data, metadata := [] } }
  , associations := [] }

set_option maxRecDepth 40000 in
/-- C4 (counterexample): with the token limit configured to 0, a single
`add_activity` leaves the context at token usage 1 > 0 with an empty queue —
the claimed invariant `token_usage ≤ token_limit` after every call fails. -/
theorem token_budget_counterexample :
    (add_activity (set_token_limit EphemeraContext.new 0) c4_fragment).current_token_usage
      = 1 ∧
    (add_activity (set_token_limit EphemeraContext.new 0) c4_fragment).max_token_limit
      = 0 ∧
    (add_activity (set_token_limit EphemeraContext.new 0) c4_fragment).max_token_limit
      < (add_activity (set_token_limit EphemeraContext.new 0) c4_fragment).current_token_usage := by
  refine ⟨rfl, rfl, ?_⟩
  have h1 : (add_activity (set_token_limit EphemeraContext.new 0) c4_fragment).current_token_usage
      = 1 := rfl
  have h2 : (add_activity (set_token_limit EphemeraContext.new 0) c4_fragment).max_token_limit
      = 0 := rfl
  rw [h1, h2]
  exact Nat.one_pos

end Epha

namespace Epha

/-- A search hit as the `memory_recall` tool receives it. Modelled from the
spec and the field accesses in `tools/memory.rs` (`loom_client::MemoryResponse`
is defined in the absent `loom-client/src/memory.rs`): id, content, creation
instant and an optional source string. -/
structure MemoryResponse where
  id : Int
  content : Str
  created_at : Int
  source : Option Str
deriving DecidableEq, Repr

/-- The fragment `tools/memory.rs` builds from a `MemoryResponse`: default
subjective metadata and an `action` source from the optional source string
(`unknown` when absent). -/
def fragment_of_response (r : MemoryResponse) : MemoryFragment :=
  { id := r.id
  , content := r.content
  , subjective_metadata := SubjectiveMetadata.default
  , objective_metadata :=
      { created_at := r.created_at
      , source := match r.source with
          | some s => MemorySource.action s
          | none => MemorySource.action (("unknown").data) }
  , associations := [] }

/-- The recall cache (`RecallCacheHelper.memories : HashMap<i64, _>`),
modelled as an association list with HashMap insert (replace-on-collision)
semantics; no cache operation observes iteration order. -/
abbrev RecallCache := List (Int × MemoryFragment)

/-- `HashMap::insert`. -/
def cache_insert (c : RecallCache) (id : Int) (m : MemoryFragment) : RecallCache :=
  if (c : List (Int × MemoryFragment)).any (fun p => p.1 = id) then
    (c : List (Int × MemoryFragment)).map (fun p => if p.1 = id then (id, m) else p)
  else c ++ [(id, m)]

/-- `RecallCacheHelper::store_responses`: clear, then insert the converted
fragment for every response. -/
def store_responses (responses : List MemoryResponse) : RecallCache :=
  responses.foldl (fun acc r => cache_insert acc r.id (fragment_of_response r)) []

/-- `RecallCacheHelper::get`: all requested ids in request order, or `none`
as soon as any id is absent. -/
def cache_get (c : RecallCache) : List Int → Option (List MemoryFragment)
  | [] => some []
  | id :: rest =>
    match (c : List (Int × MemoryFragment)).find? (fun p => p.1 = id) with
    | none => none
    | some p =>
      match cache_get c rest with
      | none => none
      | some ms => some (p.2 :: ms)

/-- `RecallCacheHelper::is_empty`. -/
def cache_is_empty (c : RecallCache) : Bool :=
  (c : List (Int × MemoryFragment)).isEmpty

/-- `MemoryRecall::call` from `tools/memory.rs`: a failed search is a tool
error and leaves the cache alone; an empty search result answers "No
relevant memories found." WITHOUT touching the cache; a non-empty result
overwrites the cache via `store_responses` and answers with the serialized
fragments. -/
def memory_recall_call (cache : RecallCache)
    (search_result : Except Unit (List MemoryResponse)) :
    Except Unit Str × RecallCache :=
  match search_result with
  | .error _ => (.error (), cache)
  | .ok ms =>
    if ms.isEmpty then (.ok (("No relevant memories found.").data), cache)
    else
      (.ok (("Recalled ").data ++ natToChars ms.length
          ++ (" memories (cached for selection):\n\n").data
          ++ memory_fragment_list_serialize (ms.map fragment_of_response)
          ++ ("\n\nUse select_memories tool to add specific memories to context.").data),
        store_responses ms)

/-- `MemorySelection::call` from `tools/memory.rs`: an empty cache is a
selection error; a missing id is a selection error; otherwise the fragments
go into the context via `add_memory_context` and the cache is cleared. -/
def memory_selection_call (cache : RecallCache) (ctx : EphemeraContext)
    (memory_ids : List Int) (summary : Str) (now : Int) :
    Except Unit Str × RecallCache × EphemeraContext :=
  if cache_is_empty cache then (.error (), cache, ctx)
  else
    match cache_get cache memory_ids with
    | some memories =>
      (.ok (("Successfully added ").data ++ natToChars memories.length
          ++ (" memories to context.\nSummary: ").data ++ summary
          ++ ("\n\nMemory IDs: ").data
          ++ List.intercalate ((", ").data) (memory_ids.map intToChars)),
        ([] : List (Int × MemoryFragment)),
        add_memory_context ctx summary memories now)
    | none => (.error (), cache, ctx)

end Epha

namespace Epha

theorem mem_cache_insert (c : RecallCache) (id : Int) (m : MemoryFragment)
    (p : Int × MemoryFragment) (hp : p ∈ cache_insert c id m) :
    p ∈ c ∨ p = (id, m) := by
  unfold cache_insert at hp
  by_cases h : c.any (fun q => q.1 = id)
  · rw [if_pos h] at hp
    rcases List.mem_map.mp hp with ⟨q, hq, rfl⟩
    by_cases hqi : q.1 = id
    · right
      simp [hqi]
    · left
      simpa [hqi] using hq
  · rw [if_neg h] at hp
    rcases List.mem_append.mp hp with h1 | h1
    · exact Or.inl h1
    · right
      simpa using h1

theorem key_mem_cache_insert (c : RecallCache) (id : Int) (m : MemoryFragment) :
    ∃ q ∈ cache_insert c id m, q.1 = id := by
  unfold cache_insert
  by_cases h : c.any (fun q => q.1 = id)
  · rw [if_pos h]
    rcases List.any_eq_true.mp h with ⟨q, hq, hqi⟩
    refine ⟨(id, m), ?_, rfl⟩
    refine List.mem_map.mpr ⟨q, hq, ?_⟩
    simp only [decide_eq_true_eq] at hqi
    rw [if_pos hqi]
  · rw [if_neg h]
    exact ⟨(id, m), by simp, rfl⟩

theorem key_preserved_cache_insert (c : RecallCache) (id : Int) (m : MemoryFragment)
    (k : Int) (hk : ∃ q ∈ c, q.1 = k) : ∃ q ∈ cache_insert c id m, q.1 = k := by
  by_cases hik : k = id
  · subst hik
    exact key_mem_cache_insert c k m
  · rcases hk with ⟨q, hq, hqk⟩
    unfold cache_insert
    by_cases h : c.any (fun q => q.1 = id)
    · rw [if_pos h]
      refine ⟨q, List.mem_map.mpr ⟨q, hq, ?_⟩, hqk⟩
      rw [if_neg (by rw [hqk]; exact hik)]
    · rw [if_neg h]
      exact ⟨q, by simp [hq], hqk⟩

theorem mem_store_responses (responses : List MemoryResponse) :
    ∀ p ∈ store_responses responses,
      ∃ r ∈ responses, p = (r.id, fragment_of_response r) := by
  have general : ∀ (rs : List MemoryResponse) (acc : RecallCache)
      (p : Int × MemoryFragment),
      p ∈ rs.foldl (fun a r => cache_insert a r.id (fragment_of_response r)) acc →
      p ∈ acc ∨ ∃ r ∈ rs, p = (r.id, fragment_of_response r) := by
    intro rs
    induction rs with
    | nil => intro acc p hp; exact Or.inl hp
    | cons r rest ih =>
      intro acc p hp
      rcases ih (cache_insert acc r.id (fragment_of_response r)) p hp with h1 | h1
      · rcases mem_cache_insert _ _ _ _ h1 with h2 | h2
        · exact Or.inl h2
        · exact Or.inr ⟨r, by simp, h2⟩
      · rcases h1 with ⟨r', hr', hpr⟩
        exact Or.inr ⟨r', by simp [hr'], hpr⟩
  intro p hp
  rcases general responses [] p hp with h | h
  · simp at h
  · exact h

theorem key_mem_store_responses (responses : List MemoryResponse) :
    ∀ r ∈ responses, ∃ q ∈ store_responses responses, q.1 = r.id := by
  have general : ∀ (rs : List MemoryResponse) (acc : RecallCache) (k : Int),
      ((∃ q ∈ acc, q.1 = k) ∨ ∃ r ∈ rs, r.id = k) →
      ∃ q ∈ rs.foldl (fun a r => cache_insert a r.id (fragment_of_response r)) acc,
        q.1 = k := by
    intro rs
    induction rs with
    | nil =>
      intro acc k hk
      rcases hk with h | h
      · exact h
      · simp at h
    | cons r rest ih =>
      intro acc k hk
      refine ih (cache_insert acc r.id (fragment_of_response r)) k ?_
      rcases hk with h | h
      · exact Or.inl (key_preserved_cache_insert _ _ _ _ h)
      · rcases h with ⟨r', hr', hrk⟩
        rcases List.mem_cons.mp hr' with rfl | hr''
        · exact Or.inl (by rw [← hrk]; exact key_mem_cache_insert _ _ _)
        · exact Or.inr ⟨r', hr'', hrk⟩
  intro r hr
  exact general responses [] r.id (Or.inr ⟨r, hr, rfl⟩)

/-- C7 (amended): `memory_recall` overwrites the cache exactly when the
search returns at least one memory — the new cache then holds precisely this
call's results (each entry comes from a response of this call, and every
response id is present) — but a search yielding zero memories, like a failed
search, leaves the previous cache generation untouched. -/
theorem memory_recall_cache_contract (cache : RecallCache)
    (ms : List MemoryResponse) :
    (ms ≠ [] →
      (memory_recall_call cache (Except.ok ms)).2 = store_responses ms ∧
      (∀ p ∈ (memory_recall_call cache (Except.ok ms)).2,
        ∃ r ∈ ms, p = (r.id, fragment_of_response r)) ∧
      (∀ r ∈ ms, ∃ q ∈ (memory_recall_call cache (Except.ok ms)).2, q.1 = r.id)) ∧
    (ms = [] →
      (memory_recall_call cache (Except.ok ms)).2 = cache ∧
      (memory_recall_call cache (Except.ok ms)).1 =
        Except.ok (("No relevant memories found.").data)) ∧
    (memory_recall_call cache (Except.error ())).2 = cache := by
  refine ⟨?_, ?_, rfl⟩
  · intro hne
    have hempty : ms.isEmpty = false := by
      cases ms with
      | nil => exact absurd rfl hne
      | cons a l => rfl
    have hcall : (memory_recall_call cache (Except.ok ms)).2 = store_responses ms := by
      simp only [memory_recall_call, hempty, Bool.false_eq_true, if_false]
    refine ⟨hcall, ?_, ?_⟩
    · rw [hcall]
      exact mem_store_responses ms
    · rw [hcall]
      exact key_mem_store_responses ms
  · intro hnil
    subst hnil
    exact ⟨rfl, rfl⟩

/-- A one-hit search result and the cache generation it creates. -/
def resp_one : MemoryResponse := ⟨1, ("m1").data, 0, none⟩

def stale_cache : RecallCache := store_responses [resp_one]

/-- C7 (counterexample): a `memory_recall` whose search yields zero memories
answers "No relevant memories found." and leaves the previous, non-empty
cache generation in place — the cache does not contain "exactly the
fragments of this call's search result". -/
theorem memory_recall_empty_counterexample :
    (memory_recall_call stale_cache (Except.ok [])).1 =
      Except.ok (("No relevant memories found.").data) ∧
    (memory_recall_call stale_cache (Except.ok [])).2 = stale_cache ∧
    stale_cache ≠ [] := by
  refine ⟨rfl, rfl, by decide⟩

/-- A second search hit, used by the C7 witness. -/
def resp_two : MemoryResponse := ⟨2, ("m2").data, 0, some (("dialogue").data)⟩

/-- Witness for the amended C7 theorem at a concrete cache and result. -/
theorem memory_recall_cache_contract_witness :
    ((memory_recall_call stale_cache (Except.ok [resp_two])).2 =
        store_responses [resp_two] ∧
      (∀ p ∈ (memory_recall_call stale_cache (Except.ok [resp_two])).2,
        ∃ r ∈ [resp_two], p = (r.id, fragment_of_response r)) ∧
      (∀ r ∈ [resp_two],
        ∃ q ∈ (memory_recall_call stale_cache (Except.ok [resp_two])).2,
          q.1 = r.id)) ∧
    (memory_recall_call stale_cache (Except.ok ([] : List MemoryResponse))).2 =
      stale_cache ∧
    (memory_recall_call stale_cache (Except.error ())).2 = stale_cache :=
  ⟨(memory_recall_cache_contract stale_cache [resp_two]).1 (by simp),
    ((memory_recall_cache_contract stale_cache []).2.1 rfl).1,
    (memory_recall_cache_contract stale_cache []).2.2⟩

end Epha

namespace Epha

theorem cache_get_some_iff (c : RecallCache) :
    ∀ ids : List Int, (∃ ms, cache_get c ids = some ms) ↔
      ∀ id ∈ ids, ∃ q ∈ c, q.1 = id := by
  intro ids
  induction ids with
  | nil => simp [cache_get]
  | cons id rest ih =>
    cases hfind : (c : List (Int × MemoryFragment)).find? (fun p => p.1 = id) with
    | none =>
      constructor
      · rintro ⟨ms, hms⟩
        simp only [cache_get, hfind] at hms
        cases hms
      · intro hall
        rcases hall id (by simp) with ⟨q, hq, hqk⟩
        have := List.find?_eq_none.mp hfind q hq
        simp [hqk] at this
    | some p =>
      constructor
      · rintro ⟨ms, hms⟩
        simp only [cache_get, hfind] at hms
        cases hrest : cache_get c rest with
        | none => rw [hrest] at hms; cases hms
        | some ms' =>
          intro i hi
          rcases List.mem_cons.mp hi with rfl | hi'
          · have hp := List.find?_some hfind
            have hpc := List.mem_of_find?_eq_some hfind
            simp only [decide_eq_true_eq] at hp
            exact ⟨p, hpc, hp⟩
          · exact (ih.mp ⟨ms', hrest⟩) i hi'
      · intro hall
        have hrest := ih.mpr (fun i hi => hall i (by simp [hi]))
        rcases hrest with ⟨ms', hms'⟩
        exact ⟨p.2 :: ms', by simp only [cache_get, hfind, hms']⟩

theorem dedup_fold_spec (memories : List MemoryFragment) :
    ∀ acc : List MemoryFragment,
      ∃ added,
        memories.foldl
          (fun acc m => if acc.any (fun x => x.id = m.id) then acc else acc ++ [m])
          acc = acc ++ added ∧
        (∀ f ∈ added, f ∈ memories) ∧
        (∀ i : Int, (∃ f ∈ added, f.id = i) ↔
          ((∃ f ∈ memories, f.id = i) ∧ ¬∃ g ∈ acc, g.id = i)) := by
  induction memories with
  | nil =>
    intro acc
    exact ⟨[], by simp, by simp, by simp⟩
  | cons m rest ih =>
    intro acc
    by_cases hdup : acc.any (fun x => x.id = m.id)
    · rcases ih acc with ⟨added, heq, hsub, hiff⟩
      refine ⟨added, ?_, ?_, ?_⟩
      · simp only [List.foldl_cons]
        rw [if_pos hdup]
        exact heq
      · intro f hf
        exact List.mem_cons_of_mem m (hsub f hf)
      · intro i
        rw [hiff i]
        rcases List.any_eq_true.mp hdup with ⟨x, hx, hxid⟩
        simp only [decide_eq_true_eq] at hxid
        constructor
        · rintro ⟨⟨f, hf, hfi⟩, hnacc⟩
          exact ⟨⟨f, List.mem_cons_of_mem m hf, hfi⟩, hnacc⟩
        · rintro ⟨⟨f, hf, hfi⟩, hnacc⟩
          rcases List.mem_cons.mp hf with rfl | hf'
          · exact absurd ⟨x, hx, by rw [hxid, hfi]⟩ hnacc
          · exact ⟨⟨f, hf', hfi⟩, hnacc⟩
    · rcases ih (acc ++ [m]) with ⟨added', heq, hsub, hiff⟩
      refine ⟨m :: added', ?_, ?_, ?_⟩
      · simp only [List.foldl_cons]
        rw [if_neg hdup, heq, List.append_assoc]
        rfl
      · intro f hf
        rcases List.mem_cons.mp hf with rfl | hf'
        · exact List.mem_cons_self f rest
        · exact List.mem_cons_of_mem m (hsub f hf')
      · intro i
        by_cases him : m.id = i
        · constructor
          · intro _
            refine ⟨⟨m, List.mem_cons_self m rest, him⟩, ?_⟩
            rintro ⟨g, hg, hgi⟩
            exact hdup (List.any_eq_true.mpr ⟨g, hg, by simp [hgi, him]⟩)
          · intro _
            exact ⟨m, List.mem_cons_self m added', him⟩
        · have hstep : (∃ f ∈ m :: added', f.id = i) ↔ ∃ f ∈ added', f.id = i := by
            constructor
            · rintro ⟨f, hf, hfi⟩
              rcases List.mem_cons.mp hf with rfl | hf'
              · exact absurd hfi him
              · exact ⟨f, hf', hfi⟩
            · rintro ⟨f, hf, hfi⟩
              exact ⟨f, List.mem_cons_of_mem m hf, hfi⟩
          rw [hstep, hiff i]
          constructor
          · rintro ⟨⟨f, hf, hfi⟩, hnacc⟩
            refine ⟨⟨f, List.mem_cons_of_mem m hf, hfi⟩, ?_⟩
            intro hcon
            rcases hcon with ⟨g, hg, hgi⟩
            exact hnacc ⟨g, by simp [hg], hgi⟩
          · rintro ⟨⟨f, hf, hfi⟩, hnacc⟩
            have hf' : f ∈ rest := by
              rcases List.mem_cons.mp hf with rfl | hf'
              · exact absurd hfi him
              · exact hf'
            refine ⟨⟨f, hf', hfi⟩, ?_⟩
            rintro ⟨g, hg, hgi⟩
            rcases List.mem_append.mp hg with hg' | hg'
            · exact hnacc ⟨g, hg', hgi⟩
            · simp only [List.mem_singleton] at hg'
              subst hg'
              exact him hgi

theorem add_activity_memory_context (ctx : EphemeraContext) (f : MemoryFragment) :
    (add_activity ctx f).memory_context = ctx.memory_context := rfl

/-- C8: `select_memories(S', summary)` succeeds iff the cache is non-empty
and every requested id is present; on success it moves the looked-up
fragments into the context's memory set — appending exactly those whose id
was not already present (deduplicated by id) — and leaves the cache empty,
so a select on an empty cache (in particular an immediately following one)
fails with a selection error. -/
theorem select_memories_contract (cache : RecallCache) (ctx : EphemeraContext)
    (ids : List Int) (summary : Str) (now : Int) :
    ((∃ msg, (memory_selection_call cache ctx ids summary now).1 = Except.ok msg) ↔
      (cache ≠ [] ∧ ∀ id ∈ ids, ∃ q ∈ cache, q.1 = id)) ∧
    (∀ memories, cache_get cache ids = some memories → cache ≠ [] →
      (memory_selection_call cache ctx ids summary now).2.1 = [] ∧
      (memory_selection_call cache ctx ids summary now).2.2 =
        add_memory_context ctx summary memories now ∧
      (∃ added,
        (add_memory_context ctx summary memories now).memory_context =
          ctx.memory_context ++ added ∧
        (∀ f ∈ added, f ∈ memories) ∧
        (∀ i : Int, (∃ f ∈ added, f.id = i) ↔
          ((∃ f ∈ memories, f.id = i) ∧ ¬∃ g ∈ ctx.memory_context, g.id = i)))) ∧
    (∀ (ctx2 : EphemeraContext) (ids2 : List Int) (summary2 : Str) (now2 : Int),
      (memory_selection_call ([] : RecallCache) ctx2 ids2 summary2 now2).1 =
        Except.error ()) := by
  refine ⟨?_, ?_, ?_⟩
  · by_cases hemp : cache = []
    · subst hemp
      simp [memory_selection_call, cache_is_empty]
    · have hempf : cache_is_empty cache = false := by
        cases cache with
        | nil => exact absurd rfl hemp
        | cons a l => rfl
      cases hget : cache_get cache ids with
      | none =>
        simp only [memory_selection_call, hempf, Bool.false_eq_true, if_false, hget]
        constructor
        · rintro ⟨msg, hmsg⟩
          cases hmsg
        · rintro ⟨_, hall⟩
          rcases (cache_get_some_iff cache ids).mpr hall with ⟨ms, hms⟩
          rw [hms] at hget
          cases hget
      | some ms =>
        simp only [memory_selection_call, hempf, Bool.false_eq_true, if_false, hget]
        constructor
        · intro _
          exact ⟨hemp, (cache_get_some_iff cache ids).mp ⟨ms, hget⟩⟩
        · intro _
          exact ⟨_, rfl⟩
  · intro memories hget hne
    have hempf : cache_is_empty cache = false := by
      cases cache with
      | nil => exact absurd rfl hne
      | cons a l => rfl
    simp only [memory_selection_call, hempf, Bool.false_eq_true, if_false, hget]
    refine ⟨by trivial, by trivial, ?_⟩
    rcases dedup_fold_spec memories ctx.memory_context with ⟨added, heq, hsub, hiff⟩
    refine ⟨added, ?_, hsub, hiff⟩
    rw [add_memory_context, add_activity_memory_context]
    exact heq
  · intro ctx2 ids2 summary2 now2
    rfl

/-- Witness for the C8 theorem: selecting id 1 out of the one-entry cache. -/
theorem select_memories_contract_witness :
    (memory_selection_call stale_cache EphemeraContext.new [1] (("why").data) 0).2.1
      = [] ∧
    (memory_selection_call stale_cache EphemeraContext.new [1] (("why").data) 0).2.2
      = add_memory_context EphemeraContext.new (("why").data)
          [fragment_of_response resp_one] 0 ∧
    (∃ added,
      (add_memory_context EphemeraContext.new (("why").data)
        [fragment_of_response resp_one] 0).memory_context =
          EphemeraContext.new.memory_context ++ added ∧
      (∀ f ∈ added, f ∈ [fragment_of_response resp_one]) ∧
      (∀ i : Int, (∃ f ∈ added, f.id = i) ↔
        ((∃ f ∈ [fragment_of_response resp_one], f.id = i) ∧
          ¬∃ g ∈ EphemeraContext.new.memory_context, g.id = i))) :=
  (select_memories_contract stale_cache EphemeraContext.new [1] (("why").data) 0).2.1
    [fragment_of_response resp_one] rfl (by decide)

/-- C10: a failing `select_memories` — the failure happens exactly when the
cache is empty or some requested id is absent — leaves both the cache and
the context untouched, and the preserved cache generation still satisfies
the success precondition for a corrected request. -/
theorem select_memories_failure_preserves_state (cache : RecallCache)
    (ctx : EphemeraContext) (ids : List Int) (summary : Str) (now : Int)
    (hfail : (memory_selection_call cache ctx ids summary now).1 =
      Except.error ()) :
    (memory_selection_call cache ctx ids summary now).2.1 = cache ∧
    (memory_selection_call cache ctx ids summary now).2.2 = ctx ∧
    (cache = [] ∨ cache_get cache ids = none) ∧
    (∀ (ids2 : List Int) (summary2 : Str) (now2 : Int),
      (∃ ms2, cache_get cache ids2 = some ms2) → cache ≠ [] →
      ∃ msg, (memory_selection_call cache ctx ids2 summary2 now2).1 =
        Except.ok msg) := by
  have hretry : ∀ (ids2 : List Int) (summary2 : Str) (now2 : Int),
      (∃ ms2, cache_get cache ids2 = some ms2) → cache ≠ [] →
      ∃ msg, (memory_selection_call cache ctx ids2 summary2 now2).1 =
        Except.ok msg := by
    intro ids2 summary2 now2 hms2 hne
    have hempf : cache_is_empty cache = false := by
      cases cache with
      | nil => exact absurd rfl hne
      | cons a l => rfl
    rcases hms2 with ⟨ms2, hms2⟩
    simp only [memory_selection_call, hempf, Bool.false_eq_true, if_false, hms2]
    exact ⟨_, rfl⟩
  by_cases hemp : cache = []
  · subst hemp
    exact ⟨rfl, rfl, Or.inl rfl, hretry⟩
  · have hempf : cache_is_empty cache = false := by
      cases cache with
      | nil => exact absurd rfl hemp
      | cons a l => rfl
    cases hget : cache_get cache ids with
    | none =>
      refine ⟨?_, ?_, Or.inr rfl, hretry⟩
      · simp only [memory_selection_call, hempf, Bool.false_eq_true, if_false, hget]
      · simp only [memory_selection_call, hempf, Bool.false_eq_true, if_false, hget]
    | some ms =>
      simp only [memory_selection_call, hempf, Bool.false_eq_true, if_false,
        hget] at hfail
      cases hfail

/-- Witness for the C10 theorem: requesting the absent id 2 against the
one-entry cache fails and changes nothing. -/
theorem select_memories_failure_preserves_state_witness :
    (memory_selection_call stale_cache EphemeraContext.new [2] (("w").data) 0).2.1
      = stale_cache ∧
    (memory_selection_call stale_cache EphemeraContext.new [2] (("w").data) 0).2.2
      = EphemeraContext.new ∧
    (stale_cache = [] ∨ cache_get stale_cache [2] = none) ∧
    (∀ (ids2 : List Int) (summary2 : Str) (now2 : Int),
      (∃ ms2, cache_get stale_cache ids2 = some ms2) → stale_cache ≠ [] →
      ∃ msg, (memory_selection_call stale_cache EphemeraContext.new ids2 summary2
        now2).1 = Except.ok msg) :=
  select_memories_failure_preserves_state stale_cache EphemeraContext.new [2]
    (("w").data) 0 rfl

end Epha

namespace Agent

/-- Rust `str::replace`: scan left to right, replacing each (non-overlapping)
occurrence of `p` by `r`; used by `Context::escape_system_tags`
(`epha-agent/src/context/mod.rs`). The empty pattern never occurs there; this
model passes such input through unchanged. -/
def replaceAll (p r : Str) : Str → Str
  | [] => []
  | c :: s =>
    if p ≠ [] ∧ p.isPrefixOf (c :: s) then
      r ++ replaceAll p r (List.drop p.length (c :: s))
    else
      c :: replaceAll p r s
termination_by s => s.length
decreasing_by
  · rename_i h
    simp only [List.length_drop]
    have hp : 0 < p.length := List.length_pos.mpr h.1
    simp only [List.length_cons]
    omega
  · simp

/-- The reserved tag names of `escape_system_tags`. -/
def system_tags : List Str :=
  [("context").data, ("sys.memory").data, ("sys.agent").data, ("sys.state").data]

def openTag (t : Str) : Str := '<' :: (t ++ [('>')])

def closeTag (t : Str) : Str := '<' :: ('/' :: (t ++ [('>')]))

def escOpenTag (t : Str) : Str := ("&lt;").data ++ t ++ ("&gt;").data

def escCloseTag (t : Str) : Str := ("&lt;/").data ++ t ++ ("&gt;").data

/-- `Context::escape_system_tags`: for each reserved tag, replace its opening
and then its closing form by the `&lt;…&gt;` escapes, in the source's order. -/
def escape_system_tags (content : Str) : Str :=
  system_tags.foldl (fun acc tag =>
    replaceAll (closeTag tag) (escCloseTag tag)
      (replaceAll (openTag tag) (escOpenTag tag) acc)) content

/-- `Context::serialize`: the `<context>` envelope around the escaped
serialization. -/
def context_envelope (content : Str) : Str :=
  ("<context>\n").data ++ escape_system_tags content ++ ("\n</context>").data

/-- The text strictly between the envelope's own `<context>`/`</context>`
markers. -/
def inner_text (content : Str) : Str :=
  '\n' :: (escape_system_tags content ++ [('\n')])

/-- The same escaping as a flat list of (pattern, replacement) passes. -/
def tag_passes : List (Str × Str) :=
  [(openTag (("context").data), escOpenTag (("context").data)),
   (closeTag (("context").data), escCloseTag (("context").data)),
   (openTag (("sys.memory").data), escOpenTag (("sys.memory").data)),
   (closeTag (("sys.memory").data), escCloseTag (("sys.memory").data)),
   (openTag (("sys.agent").data), escOpenTag (("sys.agent").data)),
   (closeTag (("sys.agent").data), escCloseTag (("sys.agent").data)),
   (openTag (("sys.state").data), escOpenTag (("sys.state").data)),
   (closeTag (("sys.state").data), escCloseTag (("sys.state").data))]

theorem escape_eq_passes (content : Str) :
    escape_system_tags content =
      tag_passes.foldl (fun acc pr => replaceAll pr.1 pr.2 acc) content := rfl

theorem mem_of_head?_eq (q : Str) (c : Char) (h : q.head? = some c) : c ∈ q := by
  cases q with
  | nil => cases h
  | cons a l =>
    simp only [List.head?_cons, Option.some.injEq] at h
    simp [h]

theorem mem_of_getLast?_eq (q : Str) (c : Char) (h : q.getLast? = some c) :
    c ∈ q := by
  rcases List.mem_getLast?_eq_getLast (show c ∈ q.getLast? by rw [h]; rfl) with
    ⟨hne, rfl⟩
  exact List.getLast_mem hne

theorem getLast?_append_right (w q : Str) (h : q ≠ []) :
    (w ++ q).getLast? = q.getLast? := by
  rw [List.getLast?_append]
  cases hq : q.getLast? with
  | none => exact absurd (List.getLast?_eq_none_iff.mp hq) h
  | some a => rfl

theorem prefix_append_split {α : Type} (q : List α) :
    ∀ (a b : List α), q <+: a ++ b →
      q <+: a ∨ ∃ q2, q = a ++ q2 ∧ q2 <+: b := by
  induction q with
  | nil => intro a b _; left; exact List.nil_prefix
  | cons y q' ih =>
    intro a b h
    cases a with
    | nil =>
      right
      exact ⟨y :: q', rfl, h⟩
    | cons x a' =>
      rw [List.cons_append] at h
      obtain ⟨rfl, hq'⟩ := List.cons_prefix_cons.mp h
      rcases ih a' b hq' with h1 | ⟨q2, rfl, h2⟩
      · left
        exact List.cons_prefix_cons.mpr ⟨rfl, h1⟩
      · right
        exact ⟨q2, rfl, h2⟩

theorem infix_append_split {α : Type} (q : List α) :
    ∀ (a b : List α), q <:+: a ++ b →
      q <:+: a ∨ q <:+: b ∨
        ∃ q1 q2, q = q1 ++ q2 ∧ q1 ≠ [] ∧ q2 ≠ [] ∧ q1 <:+ a ∧ q2 <+: b := by
  intro a
  induction a with
  | nil =>
    intro b h
    right; left
    simpa using h
  | cons x a' ih =>
    intro b h
    rw [List.cons_append] at h
    rcases List.infix_cons_iff.mp h with hpre | hinf
    · cases q with
      | nil =>
        left
        exact List.nil_infix
      | cons y q' =>
        obtain ⟨rfl, hq'⟩ := List.cons_prefix_cons.mp hpre
        rcases prefix_append_split q' a' b hq' with h1 | ⟨q2, rfl, h2⟩
        · left
          exact (List.cons_prefix_cons.mpr ⟨rfl, h1⟩).isInfix
        · by_cases hq2 : q2 = []
          · subst hq2
            left
            simp only [List.append_nil]
            exact List.infix_refl _
          · right; right
            exact ⟨y :: a', q2, rfl, by simp, hq2, List.suffix_refl _, h2⟩
    · rcases ih b hinf with h1 | h1 | ⟨q1, q2, rfl, hn1, hn2, hs, hp⟩
      · left
        exact List.infix_cons h1
      · right; left
        exact h1
      · right; right
        exact ⟨q1, q2, rfl, hn1, hn2, hs.trans (List.suffix_cons x a'), hp⟩

end Agent

namespace Agent

/-- Replacement text beginning with `&`: no new prefix occurrence of an
`&`-free string is created by a replacement pass. -/
theorem replaceAll_prefix_transfer (p r : Str) (hr : r ≠ [])
    (hrh : r.head? = some '&') :
    ∀ s q : Str, '&' ∉ q → q <+: replaceAll p r s → q <+: s := by
  intro s
  refine replaceAll.induct p r
    (fun s => ∀ q : Str, '&' ∉ q → q <+: replaceAll p r s → q <+: s) ?_ ?_ ?_ s
  · intro q hq hpre
    rw [replaceAll] at hpre
    have hnil : q = [] := List.prefix_nil.mp hpre
    subst hnil
    exact List.nil_prefix
  · intro c s hif ih q hq hpre
    rw [replaceAll, if_pos hif] at hpre
    cases q with
    | nil => exact List.nil_prefix
    | cons y q' =>
      cases r with
      | nil => exact absurd rfl hr
      | cons a rtl =>
        simp only [List.head?_cons, Option.some.injEq] at hrh
        subst hrh
        rw [List.cons_append] at hpre
        obtain ⟨rfl, _⟩ := List.cons_prefix_cons.mp hpre
        exact absurd (List.mem_cons_self _ _) hq
  · intro c s hif ih q hq hpre
    rw [replaceAll, if_neg hif] at hpre
    cases q with
    | nil => exact List.nil_prefix
    | cons y q' =>
      obtain ⟨rfl, hq'⟩ := List.cons_prefix_cons.mp hpre
      exact List.cons_prefix_cons.mpr
        ⟨rfl, ih q' (fun hm => hq (List.mem_cons_of_mem _ hm)) hq'⟩

/-- A replacement pass whose text starts with `&`, ends with `;` and
contains no `<` cannot create an occurrence of a `<`-headed, `&`-free,
`;`-free string: any such infix of the output was an infix of the input. -/
theorem replaceAll_infix_transfer (p r : Str) (hr : r ≠ [])
    (hrh : r.head? = some '&') (hrl : r.getLast? = some ';') (hrlt : '<' ∉ r)
    (q : Str) (hq : q ≠ []) (hqh : q.head? = some '<') (hqa : '&' ∉ q)
    (hqs : ';' ∉ q) :
    ∀ s, q <:+: replaceAll p r s → q <:+: s := by
  intro s
  refine replaceAll.induct p r
    (fun s => q <:+: replaceAll p r s → q <:+: s) ?_ ?_ ?_ s
  · intro h
    rw [replaceAll] at h
    exact absurd (List.infix_nil.mp h) hq
  · intro c s hif ih h
    rw [replaceAll, if_pos hif] at h
    rcases infix_append_split q r _ h with h1 | h1 | ⟨q1, q2, rfl, hn1, hn2, hsuf, hpre⟩
    · exact absurd (h1.subset (mem_of_head?_eq q '<' hqh)) hrlt
    · exact (ih h1).trans ((List.drop_suffix _ _).isInfix)
    · rcases hsuf with ⟨w, hw⟩
      have hlast : q1.getLast? = some ';' := by
        rw [← hw] at hrl
        rwa [getLast?_append_right w q1 hn1] at hrl
      exact absurd (List.mem_append.mpr
        (Or.inl (mem_of_getLast?_eq q1 ';' hlast))) hqs
  · intro c s hif ih h
    rw [replaceAll, if_neg hif] at h
    rcases List.infix_cons_iff.mp h with hpre | hinf
    · cases q with
      | nil => exact absurd rfl hq
      | cons y q' =>
        obtain ⟨rfl, hq'⟩ := List.cons_prefix_cons.mp hpre
        have hq'' : q' <+: s := replaceAll_prefix_transfer p r hr hrh s q'
          (fun hm => hqa (List.mem_cons_of_mem _ hm)) hq'
        exact (List.cons_prefix_cons.mpr ⟨rfl, hq''⟩).isInfix
    · exact List.infix_cons (ih hinf)

/-- After a pass replacing `p` (a `<`-headed, `&`-free, `;`-free, non-empty
pattern) with such a replacement text, no occurrence of `p` remains. -/
theorem replaceAll_no_leftover (p r : Str) (hp : p ≠ []) (hph : p.head? = some '<')
    (hpa : '&' ∉ p) (hps : ';' ∉ p) (hr : r ≠ []) (hrh : r.head? = some '&')
    (hrl : r.getLast? = some ';') (hrlt : '<' ∉ r) :
    ∀ s, ¬ p <:+: replaceAll p r s := by
  intro s
  refine replaceAll.induct p r (fun s => ¬ p <:+: replaceAll p r s) ?_ ?_ ?_ s
  · intro h
    rw [replaceAll] at h
    exact hp (List.infix_nil.mp h)
  · intro c s hif ih h
    rw [replaceAll, if_pos hif] at h
    rcases infix_append_split p r _ h with h1 | h1 | ⟨q1, q2, hpq, hn1, hn2, hsuf, hpre⟩
    · exact absurd (h1.subset (mem_of_head?_eq p '<' hph)) hrlt
    · exact ih h1
    · rcases hsuf with ⟨w, hw⟩
      have hlast : q1.getLast? = some ';' := by
        rw [← hw] at hrl
        rwa [getLast?_append_right w q1 hn1] at hrl
      refine hps ?_
      rw [hpq]
      exact List.mem_append.mpr (Or.inl (mem_of_getLast?_eq q1 ';' hlast))
  · intro c s hif ih h
    have hnotpre : ¬ p.isPrefixOf (c :: s) = true := fun hx => hif ⟨hp, hx⟩
    rw [replaceAll, if_neg hif] at h
    rcases List.infix_cons_iff.mp h with hpre | hinf
    · cases hpcons : p with
      | nil => exact hp hpcons
      | cons y p' =>
        subst hpcons
        obtain ⟨rfl, hp'⟩ := List.cons_prefix_cons.mp hpre
        have hp'' : p' <+: s := replaceAll_prefix_transfer (y :: p') r hr hrh s p'
          (fun hm => hpa (List.mem_cons_of_mem _ hm)) hp'
        exact hnotpre (( List.isPrefixOf_iff_prefix).mpr
          (List.cons_prefix_cons.mpr ⟨rfl, hp''⟩))
    · exact ih hinf

/-- The well-formedness of an escaping pattern: non-empty, `<`-headed, free
of `&` and `;`. -/
def clean_pattern (q : Str) : Prop :=
  q ≠ [] ∧ q.head? = some '<' ∧ '&' ∉ q ∧ ';' ∉ q

instance (q : Str) : Decidable (clean_pattern q) := by
  unfold clean_pattern
  infer_instance

/-- The well-formedness of an escaping replacement: non-empty, `&`-headed,
`;`-terminated, free of `<`. -/
def clean_replacement (r : Str) : Prop :=
  r ≠ [] ∧ r.head? = some '&' ∧ r.getLast? = some ';' ∧ '<' ∉ r

instance (r : Str) : Decidable (clean_replacement r) := by
  unfold clean_replacement
  infer_instance

theorem foldl_passes_transfer (q : Str) (hq : clean_pattern q) :
    ∀ (passes : List (Str × Str)),
      (∀ pr ∈ passes, clean_replacement pr.2) →
      ∀ x, ¬ q <:+: x →
        ¬ q <:+: passes.foldl (fun acc pr => replaceAll pr.1 pr.2 acc) x := by
  intro passes
  induction passes with
  | nil => intro _ x hx; exact hx
  | cons pr rest ih =>
    intro hrs x hx
    have hpr := hrs pr (by simp)
    have hx' : ¬ q <:+: replaceAll pr.1 pr.2 x := fun hcon =>
      hx (replaceAll_infix_transfer pr.1 pr.2 hpr.1 hpr.2.1 hpr.2.2.1 hpr.2.2.2
        q hq.1 hq.2.1 hq.2.2.1 hq.2.2.2 x hcon)
    exact ih (fun pr2 h2 => hrs pr2 (List.mem_cons_of_mem _ h2))
      (replaceAll pr.1 pr.2 x) hx'

theorem foldl_no_pattern (q : Str) (hq : clean_pattern q) :
    ∀ (passes : List (Str × Str)),
      (∀ pr ∈ passes, clean_replacement pr.2) →
      (∃ r, (q, r) ∈ passes) →
      ∀ content,
        ¬ q <:+: passes.foldl (fun acc pr => replaceAll pr.1 pr.2 acc) content := by
  intro passes
  induction passes with
  | nil =>
    rintro _ ⟨r, hr⟩
    simp at hr
  | cons pr rest ih =>
    rintro hrs ⟨r, hmem⟩ content
    rcases List.mem_cons.mp hmem with heq | hmemrest
    · have hpr := hrs pr (by simp)
      rw [← heq] at hpr
      have hown : ¬ q <:+: replaceAll q r content :=
        replaceAll_no_leftover q r hq.1 hq.2.1 hq.2.2.1 hq.2.2.2
          hpr.1 hpr.2.1 hpr.2.2.1 hpr.2.2.2 content
      have step := foldl_passes_transfer q hq rest
        (fun pr2 h2 => hrs pr2 (List.mem_cons_of_mem _ h2))
        (replaceAll q r content) hown
      rw [← heq]
      exact step
    · exact ih (fun pr2 h2 => hrs pr2 (List.mem_cons_of_mem _ h2))
        ⟨r, hmemrest⟩ (replaceAll pr.1 pr.2 content)

theorem no_tag_in_inner (t e : Str) (htne : t ≠ []) (hth : t.head? = some '<')
    (htn : ('\n') ∉ t) (h : ¬ t <:+: e) :
    ¬ t <:+: '\n' :: (e ++ [('\n')]) := by
  intro hcon
  rcases List.infix_cons_iff.mp hcon with hpre | hinf
  · cases t with
    | nil => exact htne rfl
    | cons y t' =>
      obtain ⟨rfl, _⟩ := List.cons_prefix_cons.mp hpre
      exact htn (List.mem_cons_self _ _)
  · rcases infix_append_split t e [('\n')] hinf with h1 | h1 | ⟨q1, q2, rfl, hn1, hn2, hsuf, hpre2⟩
    · exact h h1
    · have h2 := h1.subset (mem_of_head?_eq t '<' hth)
      simp at h2
    · cases q2 with
      | nil => exact hn2 rfl
      | cons z q2' =>
        obtain ⟨rfl, _⟩ := List.cons_prefix_cons.mp hpre2
        exact htn (List.mem_append.mpr (Or.inr (List.mem_cons_self _ _)))

end Agent

namespace Agent

/-- C9: the serialized `<context>` envelope escapes every occurrence of the
reserved opening and closing tags, so the inner text between the envelope's
own markers contains none of the literal tag strings `<context>`,
`</context>`, `<sys.memory>`, `</sys.memory>`, `<sys.agent>`, `</sys.agent>`,
`<sys.state>`, `</sys.state>`. -/
theorem context_envelope_escapes_reserved_tags :
    ∀ content : Str,
      context_envelope content =
        ("<context>").data ++ inner_text content ++ ("</context>").data ∧
      ¬ openTag (("context").data) <:+: inner_text content ∧
      ¬ closeTag (("context").data) <:+: inner_text content ∧
      ¬ openTag (("sys.memory").data) <:+: inner_text content ∧
      ¬ closeTag (("sys.memory").data) <:+: inner_text content ∧
      ¬ openTag (("sys.agent").data) <:+: inner_text content ∧
      ¬ closeTag (("sys.agent").data) <:+: inner_text content ∧
      ¬ openTag (("sys.state").data) <:+: inner_text content ∧
      ¬ closeTag (("sys.state").data) <:+: inner_text content := by
  intro content
  have main : ∀ t : Str, clean_pattern t → ('\n') ∉ t →
      (∃ r, (t, r) ∈ tag_passes) → ¬ t <:+: inner_text content := by
    intro t hcp hnl hmem
    have hesc : ¬ t <:+: escape_system_tags content := by
      rw [escape_eq_passes]
      exact foldl_no_pattern t hcp tag_passes (by decide) hmem content
    exact no_tag_in_inner t (escape_system_tags content) hcp.1 hcp.2.1 hnl hesc
  refine ⟨?_, ?_, ?_, ?_, ?_, ?_, ?_, ?_, ?_⟩
  · rw [context_envelope, inner_text]
    simp [List.append_assoc]
  · exact main _ (by decide) (by decide) ⟨escOpenTag (("context").data), by decide⟩
  · exact main _ (by decide) (by decide) ⟨escCloseTag (("context").data), by decide⟩
  · exact main _ (by decide) (by decide) ⟨escOpenTag (("sys.memory").data), by decide⟩
  · exact main _ (by decide) (by decide) ⟨escCloseTag (("sys.memory").data), by decide⟩
  · exact main _ (by decide) (by decide) ⟨escOpenTag (("sys.agent").data), by decide⟩
  · exact main _ (by decide) (by decide) ⟨escCloseTag (("sys.agent").data), by decide⟩
  · exact main _ (by decide) (by decide) ⟨escOpenTag (("sys.state").data), by decide⟩
  · exact main _ (by decide) (by decide) ⟨escCloseTag (("sys.state").data), by decide⟩

end Agent
